import Mathlib

/-!
Verification development for the fuzzless pager's core: the lazy record
store, line wrapper and virtual line-addressing engine implemented in
`src/fuzzless/file_reader.py`.

Shallow embedding conventions:

* Python's file handle is modelled as the list of lines remaining in the
  stream (`readline` pops the head; at end of stream it returns `""`,
  matching `file.readline()` followed by `.rstrip("\n")`).
* A rich `Segment` of text `t` and style `s` is modelled by its display
  cells: the list of characters of `t`, each carrying the (optional)
  style.  The source only ever inspects segment lists through their cell
  content and cell lengths, and all record data is single-cell ASCII, so
  `cell_length` is the number of cells.  A display line (`Line`) is a
  list of cells.
* Python exceptions are modelled with `Except PyErr`: `IndexError msg`
  for the explicit `raise IndexError(...)` statements and list indexing,
  `typeError` for operations on `None` (e.g. `None < 0`).  A raised
  exception aborts the call; the pre-raise mutations of the Python
  object are not observed by any caller in the repository, so the
  `Except.error` result carries no state.
* Methods of the `FileReader` class become functions taking the state
  explicitly and returning the updated state.  The unused `read_types`
  attribute and the `filepath`/file-handle plumbing (I/O construction,
  `close`, `__del__`) are outside the model.
-/

/-- Style data as used by the rich `Style(...)` constructor calls in
`file_reader.py`; only the fields that those calls set are modelled. -/
structure Style where
  color : Option String := none
  bgcolor : Option String := none
  italic : Bool := false
  underline : Bool := false
deriving DecidableEq

/-- One display cell: a character together with the style of the rich
segment it came from (`none` models a segment created without a style). -/
structure Cell where
  char : Char
  style : Option Style
deriving DecidableEq

/-- A display line: rich's `list[Segment]`, at cell granularity. -/
abbrev Line := List Cell

/-- The cells of `Segment(s, style)`. -/
def mkSeg (s : String) (style : Option Style) : Line :=
  s.data.map (fun c => ⟨c, style⟩)

/-- Python's `range(start, stop, step)` for a positive `step` (the only
way `soft_wrap_line` calls it; Python raises `ValueError` on `step = 0`,
which no theorem below exercises because they all assume a positive wrap
width). -/
def pyRange (start stop step : Int) : List Int :=
  if 0 < step then
    (List.range ((stop - start + step - 1) / step).toNat).map
      (fun i => start + step * (i : Int))
  else []

/-- Helper for `segment_divide`: emit one slice of `line` per cut,
each slice running from the previous cut position to the next. -/
def divideFrom (line : Line) : Int → List Int → List Line
  | _, [] => []
  | pos, cut :: rest =>
    ((line.drop pos.toNat).take (cut - pos).toNat) :: divideFrom line cut rest

/-- Model of rich's `Segment.divide(line, cuts)` for the strictly
increasing positive cut positions produced by `soft_wrap_line`: one
output line per cut, holding the cells between consecutive cuts. -/
def segment_divide (line : Line) (cuts : List Int) : List Line :=
  divideFrom line 0 cuts

/-- Model of rich's `Segment.adjust_line_length(line, length, style)`:
pad short lines with styled spaces, truncate long lines to `length`
cells, leave exact-length lines unchanged. -/
def adjust_line_length (line : Line) (length : Int) (style : Style) : Line :=
  let line_length : Int := line.length
  if line_length < length then
    line ++ List.replicate (length - line_length).toNat ⟨' ', some style⟩
  else if line_length > length then line.take length.toNat
  else line

/-- The `Style(bgcolor="gray0")` padding style used by `soft_wrap_line`. -/
def padStyle : Style := { bgcolor := some "gray0" }

/-- `soft_wrap_line(line, width)` from `file_reader.py`: if the line is
wider than `width`, cut it at `range(width, line_length - 1, width)`
plus a final cut at `line_length`; otherwise keep it whole; then adjust
every piece to exactly `width` cells. -/
def soft_wrap_line (line : Line) (width : Int) : List Line :=
  let line_length : Int := line.length
  let segments :=
    if line_length > width then
      let cut_points := pyRange width (line_length - 1) width ++ [line_length]
      segment_divide line cut_points
    else [line]
  segments.map (fun s => adjust_line_length s width padStyle)

/-- The `direction` literal type (`"fwd" | "rev"`). -/
inductive Direction where
  | fwd
  | rev
deriving DecidableEq

/-- A parsed record.  The Python dataclass annotates `qual` as
`list[int]` but `fill_read_buf` actually stores the raw quality string,
so the model uses `String`. -/
structure Record where
  seq : String
  qual : String
  id : String
  direction : Direction
deriving DecidableEq

/-- The `type` literal of `ReadLineLocation` (`"data" | "eof" | "start"`). -/
inductive LocType where
  | data
  | eof
  | start
deriving DecidableEq

/-- The `ReadLineLocation` dataclass: `read` and `line` are `Optional[int]`
(`none` on the sentinel values), `type` defaults to `"data"`. -/
structure ReadLineLocation where
  read : Option Int
  line : Option Int
  type : LocType
deriving DecidableEq

/-- `ReadLineLocation(type="start")`. -/
def startLoc : ReadLineLocation := ⟨none, none, .start⟩

/-- `ReadLineLocation(type="eof")`. -/
def eofLoc : ReadLineLocation := ⟨none, none, .eof⟩

/-- `ReadLineLocation(read, line)` with the default `"data"` tag. -/
def dataLoc (read line : Int) : ReadLineLocation := ⟨some read, some line, .data⟩

/-- Python exceptions raised by the embedded code. -/
inductive PyErr where
  | indexError (msg : String)
  | typeError
deriving DecidableEq

/-- Decidable equality of call results, so that concrete runs can be
checked by evaluation. -/
instance exceptDecEq {ε α : Type} [DecidableEq ε] [DecidableEq α] :
    DecidableEq (Except ε α) := fun a b =>
  match a, b with
  | .error e, .error f =>
    if h : e = f then .isTrue (congrArg Except.error h)
    else .isFalse (fun hx => h (by injection hx))
  | .error _, .ok _ => .isFalse (fun hx => Except.noConfusion hx)
  | .ok _, .error _ => .isFalse (fun hx => Except.noConfusion hx)
  | .ok x, .ok y =>
    if h : x = y then .isTrue (congrArg Except.ok h)
    else .isFalse (fun hx => h (by injection hx))

/-- The mutable state of a `FileReader` object.  `file` is the list of
lines still unread in the underlying stream, `segment_cache` the
`read id -> wrapped lines` dictionary (keys are unique), and
`total_reads` the `Optional[int]` end-of-stream record count. -/
structure FileReader where
  file : List String
  read_buffer : List Record
  width : Int
  segment_cache : List (Int × List Line)
  total_reads : Option Int
deriving DecidableEq

/-- A fresh `FileReader` on a stream: empty buffer, width 80, empty
cache, unknown total. -/
def initReader (file : List String) : FileReader :=
  ⟨file, [], 80, [], none⟩

/-- `self._file.readline().rstrip("\n")`: pop the next stream line, or
return `""` at end of stream without consuming anything. -/
def readline : List String → String × List String
  | [] => ("", [])
  | l :: rest => (l, rest)

/-- Dictionary lookup in the segment cache. -/
def lookupC : List (Int × List Line) → Int → Option (List Line)
  | [], _ => none
  | (k, v) :: rest, key => if key = k then some v else lookupC rest key

/-- Python list indexing `xs[i]` (negative indices wrap from the end;
out-of-range raises `IndexError`). -/
def pyIndex (l : List Record) (i : Int) : Except PyErr Record :=
  let j := if i < 0 then i + l.length else i
  if h : 0 ≤ j ∧ j < l.length then
    .ok (l.get ⟨j.toNat, by omega⟩)
  else .error (.indexError "list index out of range")

/-- The `Style(color="grey62", italic=True, underline=True)` used for
identifier lines in `render_read`. -/
def idStyle : Style := { color := some "grey62", italic := true, underline := true }

/-- The wrapped display lines `render_read` computes for one record at a
given width: the decorated identifier block wrapped at `width`, then the
sequence wrapped at `width - 1` with a one-cell `Segment(" ")` gutter
prepended to each sequence line. -/
def renderLines (rec : Record) (width : Int) : List Line :=
  let seq_id := soft_wrap_line (mkSeg ("@" ++ rec.id) (some idStyle)) width
  let seq := soft_wrap_line (mkSeg rec.seq none) (width - 1)
  let padded_seq := seq.map (fun line => mkSeg " " none ++ line)
  seq_id ++ padded_seq

/-- `render_read(read_id)`: serve from `segment_cache`, otherwise index
`read_buffer`, wrap the record and cache the result. -/
def render_read (st : FileReader) (read_id : Int) :
    Except PyErr (FileReader × List Line) :=
  match lookupC st.segment_cache read_id with
  | some lines => .ok (st, lines)
  | none =>
    match pyIndex st.read_buffer read_id with
    | .error e => .error e
    | .ok rec =>
      let lines := renderLines rec st.width
      .ok ({ st with segment_cache := (read_id, lines) :: st.segment_cache }, lines)

/-- `rerender(new_width)`: store `new_width - 9` as the wrap width and
clear the whole segment cache. -/
def rerender (st : FileReader) (new_width : Int) : FileReader :=
  { st with width := new_width - 9, segment_cache := [] }

/-- `beyond_eof`: `total_reads is not None and read >= total_reads`
(the caller's `loc.read`, passed directly). -/
def beyond_eof (st : FileReader) (read : Int) : Bool :=
  match st.total_reads with
  | none => false
  | some t => read ≥ t

/-- The body of `fill_read_buf`'s `for` loop, run for the iteration
count Python fixes up front.  Reading an identifier that is empty after
stripping its framing character ends the stream: the third component
returns the `total_reads` value to record (`none` if the loop ran to
completion without hitting end of stream). -/
def fill_loop : List Record → List String → Nat → List Record × List String × Option Int
  | buf, file, 0 => (buf, file, none)
  | buf, file, m + 1 =>
    let (line0, f1) := readline file
    let id := line0.drop 1
    if id = "" then (buf, f1, some (buf.length : Int))
    else
      let (seq, f2) := readline f1
      let (_, f3) := readline f2
      let (qual, f4) := readline f3
      fill_loop (buf ++ [⟨seq, qual, id, .fwd⟩]) f4 m

/-- `fill_read_buf(to_read_id)`: reject negative ids, ids above the
100000 hard ceiling, and ids at/past a known `total_reads`; then read
records until the buffer holds `to_read_id + 1` of them or the stream
ends (in which case `total_reads` is set to the buffer length). -/
def fill_read_buf (st : FileReader) (to_read_id : Int) : Except PyErr FileReader :=
  if to_read_id < 0 then .error (.indexError "Read ID cannot be negative.")
  else if to_read_id > 100000 then .error (.indexError "File size limit reached")
  else if beyond_eof st to_read_id then .error (.indexError "No more reads left in file")
  else
    let m := (to_read_id - (st.read_buffer.length : Int) + 1).toNat
    match fill_loop st.read_buffer st.file m with
    | (buf, f, tot) =>
      .ok { st with
        read_buffer := buf
        file := f
        total_reads := match tot with | some t => some t | none => st.total_reads }

/-- Termination measure for `virtual_loc_change`: downward recursion
strictly decreases the record index (bounded below by 0), upward
recursion strictly decreases the distance to the 100000-record ceiling,
and a downward step can hand over to the non-recursive upward case at
most once. -/
def vlcMeasure (r l d : Int) : Nat :=
  if l + d < 0 then r.toNat + 100002 else (100001 - r).toNat

/-- `virtual_loc_change(loc, relative_change)` from `file_reader.py`.
Python evaluates `fill_read_buf(loc.read)` first; when `loc.read` is
`None` (a sentinel location) the comparison `None < 0` inside it raises
`TypeError`, which the leading match models.  Likewise `loc.line + int`
raises `TypeError` when `loc.line` is `None`, modelled at the point the
source first uses `loc.line`. -/
def virtual_loc_change (st : FileReader) (loc : ReadLineLocation)
    (relative_change : Int) : Except PyErr (FileReader × ReadLineLocation) :=
  match hread : loc.read with
  | none => .error .typeError
  | some read =>
    match hfill : fill_read_buf st read with
    | .error e => .error e
    | .ok st1 =>
      if beyond_eof st1 read then .ok (st1, eofLoc)
      else if read < 0 then .ok (st1, startLoc)
      else
        match render_read st1 read with
        | .error e => .error e
        | .ok (st2, cur) =>
          let lines_in_current_read : Int := cur.length
          if relative_change = 0 then .ok (st2, loc)
          else
            match hline : loc.line with
            | none => .error .typeError
            | some line =>
              let new_line := line + relative_change
              if h2 : new_line < 0 then
                if read = 0 then .ok (st2, startLoc)
                else
                  match render_read st2 (read - 1) with
                  | .error e => .error e
                  | .ok (st3, new_read) =>
                    virtual_loc_change st3
                      ⟨some (read - 1), some ((new_read.length : Int) - 1), .data⟩
                      (new_line + 1)
              else if h4 : new_line ≥ lines_in_current_read then
                if beyond_eof st2 (read + 1) then .ok (st2, eofLoc)
                else
                  virtual_loc_change st2 ⟨some (read + 1), some 0, .data⟩
                    (new_line - lines_in_current_read)
              else .ok (st2, ⟨some read, some new_line, .data⟩)
termination_by vlcMeasure (loc.read.getD 0) (loc.line.getD 0) relative_change
decreasing_by
· unfold fill_read_buf at hfill
  split_ifs at hfill <;>
    first
    | exact Except.noConfusion hfill
    | (simp only [dataLoc, hread, hline, Option.getD_some]
       unfold vlcMeasure
       split_ifs <;> omega)
· unfold fill_read_buf at hfill
  split_ifs at hfill <;>
    first
    | exact Except.noConfusion hfill
    | (simp only [dataLoc, hread, hline, Option.getD_some]
       unfold vlcMeasure
       split_ifs <;> omega)

/-- Modelled from the spec: the base complement used by the
reverse-complement operation.  The operation itself is not present under
`src/` (only its `"r"`-key binding in `app.py` declares it), so it is
modelled from the spec's description "sequence reversed and
base-complemented"; complementing swaps `A`/`T` and `C`/`G`
case-insensitively and leaves any other symbol unchanged. -/
def complement_base (c : Char) : Char :=
  if c = 'A' then 'T'
  else if c = 'T' then 'A'
  else if c = 'C' then 'G'
  else if c = 'G' then 'C'
  else if c = 'a' then 't'
  else if c = 't' then 'a'
  else if c = 'c' then 'g'
  else if c = 'g' then 'c'
  else c

/-- Modelled from the spec: flipping the direction flag. -/
def flipDir : Direction → Direction
  | .fwd => .rev
  | .rev => .fwd

/-- Modelled from the spec: the in-place replacement of record `k`'s
fields by the reverse-complement operation (sequence reversed and
base-complemented, quality reversed, direction flag flipped). -/
def recRevComp (rec : Record) : Record :=
  { seq := String.mk (rec.seq.data.reverse.map complement_base)
    qual := String.mk rec.qual.data.reverse
    id := rec.id
    direction := flipDir rec.direction }

/-- Replace the element at index `k` (no-op when out of range), as a
Python `buf[k] = ...` assignment on an in-range index. -/
def listModify : List Record → Nat → (Record → Record) → List Record
  | [], _, _ => []
  | x :: rest, 0, f => f x :: rest
  | x :: rest, k + 1, f => x :: listModify rest k f

/-- Remove the binding of key `k` from the segment cache (`del cache[k]`). -/
def eraseKey : List (Int × List Line) → Int → List (Int × List Line)
  | [], _ => []
  | (k, v) :: rest, key =>
    if k = key then eraseKey rest key else (k, v) :: eraseKey rest key

/-- Modelled from the spec: `reverse_complement(record_index)` from the
render query surface — replace record `k` in place by its reverse
complement and invalidate only that record's wrap-cache entry. -/
def reverse_complement (st : FileReader) (k : Nat) : FileReader :=
  { st with
    read_buffer := listModify st.read_buffer k recRevComp
    segment_cache := eraseKey st.segment_cache (k : Int) }

/-- The records that `fill_read_buf`'s loop would parse from a stream,
mirroring its four-`readline` iteration: stop at an identifier line that
is empty after dropping the framing character (including a missing
line), otherwise take the identifier, sequence, discarded separator and
quality lines and continue.  The short patterns cover streams that end
mid-record, where `readline` keeps returning `""`. -/
def parseRecords : List String → List Record
  | [] => []
  | line0 :: rest =>
    let id := line0.drop 1
    if id = "" then []
    else
      match rest with
      | [] => [⟨"", "", id, .fwd⟩]
      | [seq] => [⟨seq, "", id, .fwd⟩]
      | [seq, _] => [⟨seq, "", id, .fwd⟩]
      | seq :: _ :: qual :: rest4 => ⟨seq, qual, id, .fwd⟩ :: parseRecords rest4

/-- The virtual record list of a reader state: the records already
materialized, followed — while the total is still unknown — by the
records the remaining stream would yield.  Once `total_reads` is set the
code never touches the stream again. -/
def vrecs (st : FileReader) : List Record :=
  match st.total_reads with
  | some _ => st.read_buffer
  | none => st.read_buffer ++ parseRecords st.file

/-- Number of wrapped display lines of record `k` of `recs` at a wrap
width (0 when `k` is out of range). -/
def nLines (recs : List Record) (width : Int) (k : Nat) : Nat :=
  match recs.get? k with
  | some rec => (renderLines rec width).length
  | none => 0

/-- Total display lines of the records before index `k`. -/
def absUpTo (width : Int) : List Record → Nat → Nat
  | _, 0 => 0
  | [], _ + 1 => 0
  | rec :: rest, k + 1 => (renderLines rec width).length + absUpTo width rest k

/-- Total display lines of all records. -/
def totalLines (recs : List Record) (width : Int) : Nat :=
  absUpTo width recs recs.length

/-- Convert an absolute display-line index into a
(record index, line-within-record) pair. -/
def locAt (width : Int) : List Record → Nat → Nat × Nat
  | [], x => (0, x)
  | rec :: rest, x =>
    let L := (renderLines rec width).length
    if x < L then (0, x)
    else
      let p := locAt width rest (x - L)
      (p.1 + 1, p.2)

/-- The location `virtual_loc_change` resolves an absolute display-line
index `x` to: `Start` below 0, `Eof` at or past the total line count,
and otherwise the `Data` location addressing line `x`. -/
def vlcResult (recs : List Record) (width : Int) (x : Int) : ReadLineLocation :=
  if x < 0 then startLoc
  else if (totalLines recs width : Int) ≤ x then eofLoc
  else
    let p := locAt width recs x.toNat
    dataLoc p.1 p.2

/-- Cache consistency: every segment-cache entry belongs to a
materialized record and holds exactly that record's wrapped lines at the
current width. -/
def CacheOK (st : FileReader) : Prop :=
  ∀ k e, lookupC st.segment_cache k = some e →
    ∃ rec, 0 ≤ k ∧ st.read_buffer.get? k.toNat = some rec ∧
      e = renderLines rec st.width

/-- Reader states reachable through the module's own operations, as far
as the addressing-engine proofs need: the wrap width is at least 2 (the
initial width is 80 and `rerender` is fed terminal widths), the cache is
consistent, the file holds at most 100000 records (the hard ceiling),
and a known `total_reads` equals the buffer length. -/
def WFState (st : FileReader) : Prop :=
  2 ≤ st.width ∧ CacheOK st ∧ (vrecs st).length ≤ 100000 ∧
    ∀ t, st.total_reads = some t → t = (st.read_buffer.length : Int)

/-- Concrete record used by the scenario claims: a 25-base sequence. -/
def rec0 : Record :=
  ⟨"AAAAACCCCCGGGGGTTTTTAAAAA", "IIIIIIIIIIIIIIIIIIIIIIIII", "r0", .fwd⟩

/-- Concrete record used by the scenario claims: a 5-base sequence. -/
def rec1 : Record := ⟨"ACGTA", "IIIII", "r1", .fwd⟩

/-- The 2-record FASTQ stream holding `rec0` and `rec1`. -/
def sampleFile : List String :=
  ["@r0", "AAAAACCCCCGGGGGTTTTTAAAAA", "+", "IIIIIIIIIIIIIIIIIIIIIIIII",
   "@r1", "ACGTA", "+", "IIIII"]

/-- The scenario state: the 2-record file fully scanned (as after any
move that ran past the end once), wrap width 10 (e.g. after
`rerender(19)`), empty wrap cache. -/
def stC5 : FileReader := ⟨[], [rec0, rec1], 10, [], some 2⟩

/-- A reader on an empty stream after its end was discovered
(`fill_read_buf (initReader []) 0` produces exactly this state). -/
def stEmpty : FileReader := ⟨[], [], 80, [], some 0⟩

/-- `stC5` after `render_read 0` cached record 0's lines. -/
def stC5r0 : FileReader :=
  { stC5 with segment_cache := [(0, renderLines rec0 10)] }

/-! Helper lemmas about the wrapping primitives. -/

theorem divideFrom_length (line : Line) (pos : Int) (cuts : List Int) :
    (divideFrom line pos cuts).length = cuts.length := by
  induction cuts generalizing pos with
  | nil => rfl
  | cons c rest ih => simp [divideFrom, ih]

theorem adjust_line_length_length (l : Line) (v : Int) (s : Style) (hv : 0 ≤ v) :
    (adjust_line_length l v s).length = v.toNat := by
  simp only [adjust_line_length]
  split_ifs with h1 h2
  · simp only [List.length_append, List.length_replicate]
    omega
  · simp only [List.length_take]
    omega
  · omega

theorem soft_wrap_line_length_pos (line : Line) (v : Int) :
    1 ≤ (soft_wrap_line line v).length := by
  unfold soft_wrap_line
  simp only [List.length_map]
  split_ifs with h
  · simp only [segment_divide, divideFrom_length, List.length_append, List.length_cons]
    omega
  · simp

theorem soft_wrap_line_mem_length (line fr : Line) (v : Int) (hv : 0 ≤ v)
    (hf : fr ∈ soft_wrap_line line v) : fr.length = v.toNat := by
  unfold soft_wrap_line at hf
  simp only [List.mem_map] at hf
  obtain ⟨s, -, rfl⟩ := hf
  exact adjust_line_length_length s v padStyle hv

theorem renderLines_length_pos (rec : Record) (w : Int) :
    1 ≤ (renderLines rec w).length := by
  unfold renderLines
  simp only [List.length_append, List.length_map]
  have := soft_wrap_line_length_pos (mkSeg ("@" ++ rec.id) (some idStyle)) w
  omega

/-! Helper lemmas about absolute display-line indexing. -/

theorem nLines_cons_succ (rec : Record) (rest : List Record) (w : Int) (k : Nat) :
    nLines (rec :: rest) w (k + 1) = nLines rest w k := rfl

theorem nLines_cons_zero (rec : Record) (rest : List Record) (w : Int) :
    nLines (rec :: rest) w 0 = (renderLines rec w).length := rfl

theorem nLines_pos (recs : List Record) (w : Int) (k : Nat)
    (hk : k < recs.length) : 1 ≤ nLines recs w k := by
  unfold nLines
  rcases h : recs.get? k with - | rec
  · rw [List.get?_eq_none] at h
    omega
  · exact renderLines_length_pos rec w

theorem absUpTo_succ (w : Int) (recs : List Record) (k : Nat) :
    absUpTo w recs (k + 1) = absUpTo w recs k + nLines recs w k := by
  induction recs generalizing k with
  | nil => cases k <;> simp [absUpTo, nLines]
  | cons rec rest ih =>
    cases k with
    | zero => simp [absUpTo, nLines]
    | succ k => simp only [absUpTo, ih k, nLines_cons_succ]; omega

theorem absUpTo_mono (w : Int) (recs : List Record) (k j : Nat) (h : k ≤ j) :
    absUpTo w recs k ≤ absUpTo w recs j := by
  induction j with
  | zero =>
    have hk : k = 0 := by omega
    simp [hk]
  | succ j ih =>
    rcases Nat.lt_or_ge k (j + 1) with hlt | hge
    · have h1 := ih (by omega)
      rw [absUpTo_succ]
      omega
    · have hk : k = j + 1 := by omega
      simp [hk]

theorem totalLines_cons (rec : Record) (rest : List Record) (w : Int) :
    totalLines (rec :: rest) w = (renderLines rec w).length + totalLines rest w := by
  simp [totalLines, absUpTo]

theorem locAt_eq (w : Int) (recs : List Record) (r l : Nat)
    (hl : l < nLines recs w r) :
    locAt w recs (absUpTo w recs r + l) = (r, l) := by
  induction r generalizing recs with
  | zero =>
    cases recs with
    | nil => simp [nLines] at hl
    | cons rec rest =>
      rw [nLines_cons_zero] at hl
      simp only [absUpTo, Nat.zero_add, locAt]
      rw [if_pos hl]
  | succ r ih =>
    cases recs with
    | nil => simp [nLines] at hl
    | cons rec rest =>
      rw [nLines_cons_succ] at hl
      simp only [absUpTo, locAt]
      rw [if_neg (by omega)]
      have harg : (renderLines rec w).length + absUpTo w rest r + l -
          (renderLines rec w).length = absUpTo w rest r + l := by omega
      rw [harg, ih rest hl]

theorem locAt_bounds (w : Int) (recs : List Record) (x : Nat)
    (hx : x < totalLines recs w) :
    absUpTo w recs (locAt w recs x).1 + (locAt w recs x).2 = x ∧
      (locAt w recs x).1 < recs.length ∧
      (locAt w recs x).2 < nLines recs w (locAt w recs x).1 := by
  induction recs generalizing x with
  | nil => simp [totalLines, absUpTo] at hx
  | cons rec rest ih =>
    rw [totalLines_cons] at hx
    simp only [locAt]
    split_ifs with h
    · exact ⟨by simp [absUpTo], by simp, by rwa [nLines_cons_zero]⟩
    · have hx' : x - (renderLines rec w).length < totalLines rest w := by omega
      obtain ⟨h1, h2, h3⟩ := ih (x - (renderLines rec w).length) hx'
      refine ⟨?_, by simpa using h2, by rwa [nLines_cons_succ]⟩
      simp only [absUpTo]
      omega

/-! Helper lemmas about the record-store parsing loop. -/

theorem parseRecords_eq (file : List String) :
    parseRecords file =
      (let (line0, f1) := readline file
       let id := line0.drop 1
       if id = "" then []
       else
         let (seq, f2) := readline f1
         let (_, f3) := readline f2
         let (qual, f4) := readline f3
         ⟨seq, qual, id, .fwd⟩ :: parseRecords f4) := by
  cases file with
  | nil => simp [parseRecords, readline]
  | cons line0 rest =>
    cases rest with
    | nil => by_cases hid : line0.drop 1 = "" <;> simp [parseRecords, readline, hid]
    | cons seq rest2 =>
      cases rest2 with
      | nil => by_cases hid : line0.drop 1 = "" <;> simp [parseRecords, readline, hid]
      | cons sep rest3 =>
        cases rest3 with
        | nil => by_cases hid : line0.drop 1 = "" <;> simp [parseRecords, readline, hid]
        | cons qual rest4 =>
          by_cases hid : line0.drop 1 = "" <;> simp [parseRecords, readline, hid]

theorem fill_loop_parse_le : ∀ (m : Nat) (buf : List Record) (file : List String),
    m ≤ (parseRecords file).length →
    ∃ file', fill_loop buf file m = (buf ++ (parseRecords file).take m, file', none) ∧
      parseRecords file' = (parseRecords file).drop m := by
  intro m
  induction m with
  | zero => exact fun buf file _ => ⟨file, by simp [fill_loop], by simp⟩
  | succ m ih =>
    intro buf file hm
    rcases hr0 : readline file with ⟨line0, f1⟩
    by_cases hid : line0.drop 1 = ""
    · rw [parseRecords_eq file, hr0] at hm
      simp [hid] at hm
    · rcases hr1 : readline f1 with ⟨seq, f2⟩
      rcases hr2 : readline f2 with ⟨sep, f3⟩
      rcases hr3 : readline f3 with ⟨qual, f4⟩
      have hparse : parseRecords file =
          ⟨seq, qual, line0.drop 1, .fwd⟩ :: parseRecords f4 := by
        rw [parseRecords_eq file, hr0]
        simp [hid, hr1, hr2, hr3]
      have hm' : m ≤ (parseRecords f4).length := by
        rw [hparse] at hm
        simpa using hm
      obtain ⟨file', h1, h2⟩ := ih (buf ++ [⟨seq, qual, line0.drop 1, .fwd⟩]) f4 hm'
      refine ⟨file', ?_, ?_⟩
      · simp only [fill_loop, hr0, hr1, hr2, hr3, hid, if_neg, ite_false]
        rw [h1, hparse]
        simp [List.append_assoc]
      · rw [h2, hparse]
        simp

theorem fill_loop_discovery : ∀ (m : Nat) (buf : List Record) (file : List String),
    (parseRecords file).length < m →
    ∃ file', fill_loop buf file m =
      (buf ++ parseRecords file, file',
        some ((buf.length + (parseRecords file).length : Nat) : Int)) := by
  intro m
  induction m with
  | zero => intro buf file hm; omega
  | succ m ih =>
    intro buf file hm
    rcases hr0 : readline file with ⟨line0, f1⟩
    by_cases hid : line0.drop 1 = ""
    · have hparse : parseRecords file = [] := by
        rw [parseRecords_eq file, hr0]
        simp [hid]
      refine ⟨f1, ?_⟩
      simp [fill_loop, hr0, hid, hparse]
    · rcases hr1 : readline f1 with ⟨seq, f2⟩
      rcases hr2 : readline f2 with ⟨sep, f3⟩
      rcases hr3 : readline f3 with ⟨qual, f4⟩
      have hparse : parseRecords file =
          ⟨seq, qual, line0.drop 1, .fwd⟩ :: parseRecords f4 := by
        rw [parseRecords_eq file, hr0]
        simp [hid, hr1, hr2, hr3]
      have hm' : (parseRecords f4).length < m := by
        rw [hparse] at hm
        simpa using hm
      obtain ⟨file', h1⟩ := ih (buf ++ [⟨seq, qual, line0.drop 1, .fwd⟩]) f4 hm'
      refine ⟨file', ?_⟩
      simp only [fill_loop, hr0, hr1, hr2, hr3, hid, if_neg, ite_false]
      rw [h1, hparse]
      simp only [Prod.mk.injEq, List.append_assoc, List.singleton_append,
        List.length_append, List.length_cons, List.length_singleton]
      refine ⟨trivial, trivial, ?_⟩
      simp only [Option.some.injEq, List.length_nil, Nat.cast_inj]
      omega

theorem fill_loop_total_eq : ∀ (m : Nat) (buf : List Record) (file : List String)
    (buf' : List Record) (file' : List String) (t : Int),
    fill_loop buf file m = (buf', file', some t) → t = (buf'.length : Int) := by
  intro m
  induction m with
  | zero =>
    intro buf file buf' file' t h
    simp [fill_loop] at h
  | succ m ih =>
    intro buf file buf' file' t h
    rcases hr0 : readline file with ⟨line0, f1⟩
    by_cases hid : line0.drop 1 = ""
    · simp [fill_loop, hr0, hid] at h
      obtain ⟨h1, -, h3⟩ := h
      rw [← h1, ← h3]
    · rcases hr1 : readline f1 with ⟨seq, f2⟩
      rcases hr2 : readline f2 with ⟨sep, f3⟩
      rcases hr3 : readline f3 with ⟨qual, f4⟩
      simp only [fill_loop, hr0, hr1, hr2, hr3, hid, if_neg, ite_false] at h
      exact ih _ _ _ _ _ h

/-! Helper lemmas about the record store operations. -/

theorem vrecs_some (st : FileReader) (t : Int) (ht : st.total_reads = some t) :
    vrecs st = st.read_buffer := by
  unfold vrecs
  rw [ht]

theorem vrecs_none (st : FileReader) (ht : st.total_reads = none) :
    vrecs st = st.read_buffer ++ parseRecords st.file := by
  unfold vrecs
  rw [ht]

theorem buffer_get_vrecs (st : FileReader) (k : Nat)
    (hk : k < st.read_buffer.length) :
    (vrecs st).get? k = st.read_buffer.get? k := by
  unfold vrecs
  rcases st.total_reads with - | t
  · exact List.get?_append hk
  · rfl

theorem pyIndex_ok (l : List Record) (i : Int) (rec : Record) (hi : 0 ≤ i)
    (hg : l.get? i.toNat = some rec) : pyIndex l i = .ok rec := by
  obtain ⟨hlt, hv⟩ := List.get?_eq_some.mp hg
  unfold pyIndex
  have hneg : ¬ i < 0 := by omega
  simp only [hneg, if_false]
  rw [dif_pos ⟨hi, by omega⟩]
  exact congrArg Except.ok hv

theorem fill_some_noop (st : FileReader) (t r : Int)
    (ht : st.total_reads = some t) (hlen : (st.read_buffer.length : Int) = t)
    (hr0 : 0 ≤ r) (hrc : r ≤ 100000) (hrt : r < t) :
    fill_read_buf st r = .ok st := by
  unfold fill_read_buf
  rw [if_neg (by omega), if_neg (by omega)]
  have hb : beyond_eof st r = false := by
    unfold beyond_eof
    rw [ht]
    simp only [ge_iff_le, decide_eq_false_iff_not, not_le]
    omega
  rw [hb]
  have hm : (r - (st.read_buffer.length : Int) + 1).toNat = 0 := by omega
  simp only [Bool.false_eq_true, if_false, hm, fill_loop]

theorem fill_none_le (st : FileReader) (r : Int)
    (ht : st.total_reads = none) (hr0 : 0 ≤ r) (hrc : r ≤ 100000)
    (hrn : r.toNat < (vrecs st).length) :
    ∃ st', fill_read_buf st r = .ok st' ∧
      st'.total_reads = none ∧ st'.width = st.width ∧
      st'.segment_cache = st.segment_cache ∧
      vrecs st' = vrecs st ∧
      (∀ k, k < st.read_buffer.length →
        st'.read_buffer.get? k = st.read_buffer.get? k) ∧
      r.toNat < st'.read_buffer.length := by
  have hv : (vrecs st).length =
      st.read_buffer.length + (parseRecords st.file).length := by
    rw [vrecs_none st ht]
    simp
  unfold fill_read_buf
  rw [if_neg (by omega), if_neg (by omega)]
  have hb : beyond_eof st r = false := by
    unfold beyond_eof
    rw [ht]
  rw [hb]
  simp only [Bool.false_eq_true, if_false]
  by_cases hle : r.toNat + 1 ≤ st.read_buffer.length
  · have hm : (r - (st.read_buffer.length : Int) + 1).toNat = 0 := by omega
    rw [hm]
    exact ⟨st, rfl, ht, rfl, rfl, rfl, fun k _ => rfl, by omega⟩
  · have hm : (r - (st.read_buffer.length : Int) + 1).toNat =
        r.toNat + 1 - st.read_buffer.length := by omega
    rw [hm]
    have hmle : r.toNat + 1 - st.read_buffer.length ≤
        (parseRecords st.file).length := by omega
    obtain ⟨file', h1, h2⟩ :=
      fill_loop_parse_le (r.toNat + 1 - st.read_buffer.length)
        st.read_buffer st.file hmle
    rw [h1]
    refine ⟨_, rfl, by simp [ht], rfl, rfl, ?_, ?_, ?_⟩
    · show vrecs _ = vrecs st
      rw [vrecs_none _ (by simp [ht]), vrecs_none st ht]
      show st.read_buffer ++ _ ++ parseRecords file' = _
      rw [h2, List.append_assoc, List.take_append_drop]
    · intro k hk
      exact List.get?_append hk
    · show r.toNat < (st.read_buffer ++ _).length
      rw [List.length_append, List.length_take]
      omega

theorem fill_none_discovery (st : FileReader) (r : Int)
    (ht : st.total_reads = none) (hr0 : 0 ≤ r) (hrc : r ≤ 100000)
    (hrn : (vrecs st).length ≤ r.toNat) :
    ∃ st', fill_read_buf st r = .ok st' ∧
      st'.read_buffer = vrecs st ∧
      st'.total_reads = some ((vrecs st).length : Int) ∧
      st'.width = st.width ∧ st'.segment_cache = st.segment_cache ∧
      vrecs st' = vrecs st := by
  have hv : (vrecs st).length =
      st.read_buffer.length + (parseRecords st.file).length := by
    rw [vrecs_none st ht]
    simp
  unfold fill_read_buf
  rw [if_neg (by omega), if_neg (by omega)]
  have hb : beyond_eof st r = false := by
    unfold beyond_eof
    rw [ht]
  rw [hb]
  simp only [Bool.false_eq_true, if_false]
  have hm : (r - (st.read_buffer.length : Int) + 1).toNat =
      r.toNat + 1 - st.read_buffer.length := by omega
  rw [hm]
  have hmgt : (parseRecords st.file).length <
      r.toNat + 1 - st.read_buffer.length := by omega
  obtain ⟨file', h1⟩ :=
    fill_loop_discovery (r.toNat + 1 - st.read_buffer.length)
      st.read_buffer st.file hmgt
  rw [h1]
  refine ⟨_, rfl, ?_, ?_, rfl, rfl, ?_⟩
  · rw [vrecs_none st ht]
  · show some _ = _
    rw [hv]
  · rw [vrecs_some _ _ (by rfl), vrecs_none st ht]

theorem fill_err_beyond (st : FileReader) (t r : Int)
    (ht : st.total_reads = some t) (hrt : t ≤ r) :
    ∃ msg, fill_read_buf st r = .error (.indexError msg) := by
  unfold fill_read_buf
  split_ifs with h1 h2 h3
  · exact ⟨_, rfl⟩
  · exact ⟨_, rfl⟩
  · exact ⟨_, rfl⟩
  · exfalso
    unfold beyond_eof at h3
    rw [ht] at h3
    simp only [ge_iff_le, decide_eq_true_eq] at h3
    omega

theorem render_spec (st : FileReader) (r : Int) (rec : Record)
    (hc : CacheOK st) (hr0 : 0 ≤ r)
    (hget : st.read_buffer.get? r.toNat = some rec) :
    ∃ st', render_read st r = .ok (st', renderLines rec st.width) ∧
      st'.read_buffer = st.read_buffer ∧ st'.width = st.width ∧
      st'.total_reads = st.total_reads ∧ st'.file = st.file ∧ CacheOK st' := by
  unfold render_read
  rcases hl : lookupC st.segment_cache r with - | e
  · rw [pyIndex_ok st.read_buffer r rec hr0 hget]
    refine ⟨_, rfl, rfl, rfl, rfl, rfl, ?_⟩
    intro k e' hke
    simp only [lookupC] at hke
    split_ifs at hke with hk
    · subst hk
      injection hke with he'
      exact ⟨rec, hr0, hget, he'.symm⟩
    · exact hc k e' hke
  · obtain ⟨rec', hk0, hg, he⟩ := hc r e hl
    rw [hget] at hg
    injection hg with hg
    subst hg
    subst he
    exact ⟨st, rfl, rfl, rfl, rfl, rfl, hc⟩

theorem render_preserves (st : FileReader) (k : Int) (st' : FileReader)
    (ls : List Line) (h : render_read st k = .ok (st', ls)) :
    st'.read_buffer = st.read_buffer ∧ st'.total_reads = st.total_reads ∧
      st'.file = st.file ∧ st'.width = st.width := by
  unfold render_read at h
  split at h
  · injection h with h
    injection h with h1 h2
    subst h1
    exact ⟨rfl, rfl, rfl, rfl⟩
  · split at h
    · cases h
    · injection h with h
      injection h with h1 h2
      subst h1
      exact ⟨rfl, rfl, rfl, rfl⟩

theorem beyond_eof_some (st : FileReader) (t x : Int)
    (ht : st.total_reads = some t) : beyond_eof st x = decide (x ≥ t) := by
  unfold beyond_eof
  rw [ht]

theorem beyond_eof_none (st : FileReader) (x : Int)
    (ht : st.total_reads = none) : beyond_eof st x = false := by
  unfold beyond_eof
  rw [ht]

theorem vrecs_congr (st st' : FileReader)
    (hb : st'.read_buffer = st.read_buffer) (ht : st'.total_reads = st.total_reads)
    (hf : st'.file = st.file) : vrecs st' = vrecs st := by
  unfold vrecs
  rw [hb, ht, hf]

theorem WF_congr (st st' : FileReader) (hWF : WFState st)
    (hb : st'.read_buffer = st.read_buffer) (ht : st'.total_reads = st.total_reads)
    (hf : st'.file = st.file) (hw : st'.width = st.width) (hc : CacheOK st') :
    WFState st' := by
  obtain ⟨h1, h2, h3, h4⟩ := hWF
  refine ⟨hw ▸ h1, hc, ?_, ?_⟩
  · rw [vrecs_congr st st' hb ht hf]
    exact h3
  · intro t htt
    rw [ht] at htt
    rw [hb]
    exact h4 t htt

theorem fill_spec_lt (st : FileReader) (r : Int) (hWF : WFState st)
    (hr0 : 0 ≤ r) (hrn : r < ((vrecs st).length : Int)) :
    ∃ st', fill_read_buf st r = .ok st' ∧ beyond_eof st' r = false ∧
      st'.width = st.width ∧ vrecs st' = vrecs st ∧
      r.toNat < st'.read_buffer.length ∧ st'.total_reads = st.total_reads ∧
      WFState st' := by
  obtain ⟨hw, hc, hn, htl⟩ := hWF
  rcases ht : st.total_reads with - | t
  · obtain ⟨st', h1, h2, h3, h4, h5, h6, h7⟩ :=
      fill_none_le st r ht hr0 (by omega) (by omega)
    refine ⟨st', h1, beyond_eof_none st' r h2, h3, h5, h7, h2, ?_⟩
    refine ⟨h3 ▸ hw, ?_, h5 ▸ hn, ?_⟩
    · intro k e hke
      rw [h4] at hke
      obtain ⟨rec, hk0, hget, he⟩ := hc k e hke
      have hkl : k.toNat < st.read_buffer.length := (List.get?_eq_some.mp hget).1
      exact ⟨rec, hk0, (h6 k.toNat hkl).trans hget, h3 ▸ he⟩
    · intro t' htt
      rw [h2] at htt
      cases htt
  · have hteq : t = (st.read_buffer.length : Int) := htl t ht
    have hveq : vrecs st = st.read_buffer := vrecs_some st t ht
    have hfill : fill_read_buf st r = .ok st := by
      refine fill_some_noop st t r ht hteq.symm hr0 ?_ ?_
      · rw [hveq] at hn hrn
        omega
      · rw [hveq] at hrn
        omega
    refine ⟨st, hfill, ?_, rfl, rfl, ?_, ht, ⟨hw, hc, hn, htl⟩⟩
    · rw [beyond_eof_some st t r ht]
      rw [hveq] at hrn
      simp only [ge_iff_le, decide_eq_false_iff_not, not_le]
      omega
    · rw [hveq] at hrn
      omega

theorem render_spec_vrecs (st : FileReader) (r : Int)
    (hWF : WFState st) (hr0 : 0 ≤ r) (hlen : r.toNat < st.read_buffer.length) :
    ∃ st' rec, (vrecs st).get? r.toNat = some rec ∧
      render_read st r = .ok (st', renderLines rec st.width) ∧
      WFState st' ∧ vrecs st' = vrecs st ∧ st'.width = st.width ∧
      st'.read_buffer = st.read_buffer := by
  obtain ⟨rec, hrecb⟩ : ∃ rec, st.read_buffer.get? r.toNat = some rec := by
    rcases h : st.read_buffer.get? r.toNat with - | rec
    · rw [List.get?_eq_none] at h
      omega
    · exact ⟨rec, rfl⟩
  have hrec : (vrecs st).get? r.toNat = some rec := by
    rw [buffer_get_vrecs st r.toNat hlen]
    exact hrecb
  obtain ⟨st', h1, h2, h3, h4, h5, h6⟩ := render_spec st r rec hWF.2.1 hr0 hrecb
  refine ⟨st', rec, hrec, h1, ?_, vrecs_congr st st' h2 h4 h5, h3, h2⟩
  exact WF_congr st st' hWF h2 h4 h5 h3 h6

theorem vlcResult_start (recs : List Record) (w x : Int) (hx : x < 0) :
    vlcResult recs w x = startLoc := by
  unfold vlcResult
  rw [if_pos hx]

theorem vlcResult_eof (recs : List Record) (w x : Int)
    (hx : (totalLines recs w : Int) ≤ x) :
    vlcResult recs w x = eofLoc := by
  unfold vlcResult
  rw [if_neg (by omega), if_pos hx]

theorem vlcResult_data (recs : List Record) (w r l : Int)
    (hr0 : 0 ≤ r) (hrn : r < (recs.length : Int)) (hl0 : 0 ≤ l)
    (hln : l < (nLines recs w r.toNat : Int)) :
    vlcResult recs w ((absUpTo w recs r.toNat : Int) + l) = dataLoc r l := by
  have hlt : absUpTo w recs r.toNat + l.toNat < totalLines recs w := by
    have hs := absUpTo_succ w recs r.toNat
    have hm := absUpTo_mono w recs (r.toNat + 1) recs.length (by omega)
    unfold totalLines
    omega
  unfold vlcResult
  rw [if_neg (by omega), if_neg (by omega)]
  have htn : ((absUpTo w recs r.toNat : Int) + l).toNat =
      absUpTo w recs r.toNat + l.toNat := by omega
  simp only [htn, locAt_eq w recs r.toNat l.toNat (by omega)]
  unfold dataLoc
  simp [Int.toNat_of_nonneg hr0, Int.toNat_of_nonneg hl0]

theorem vlc_spec : ∀ (N : Nat) (st : FileReader) (r l d : Int),
    vlcMeasure r l d < N → WFState st →
    0 ≤ r → r < ((vrecs st).length : Int) →
    0 ≤ l → l < (nLines (vrecs st) st.width r.toNat : Int) →
    ∃ st', virtual_loc_change st ⟨some r, some l, .data⟩ d =
        .ok (st', vlcResult (vrecs st) st.width
          ((absUpTo st.width (vrecs st) r.toNat : Int) + l + d)) ∧
      WFState st' ∧ vrecs st' = vrecs st ∧ st'.width = st.width := by
  intro N
  induction N with
  | zero => intro st r l d hM _ _ _ _ _; omega
  | succ N ih =>
    intro st r l d hM hWF hr0 hrn hl0 hln
    have hn100 : (vrecs st).length ≤ 100000 := hWF.2.2.1
    obtain ⟨st1, hfill, hbe1, hw1, hv1, hlen1, hts1, hWF1⟩ := fill_spec_lt st r hWF hr0 hrn
    obtain ⟨st2, rec, hrec1, hrend, hWF2, hv2, hw21, hb2⟩ :=
      render_spec_vrecs st1 r hWF1 hr0 hlen1
    have hrec : (vrecs st).get? r.toNat = some rec := by
      rw [← hv1]
      exact hrec1
    have hnl : nLines (vrecs st) st.width r.toNat =
        (renderLines rec st.width).length := by
      unfold nLines
      rw [hrec]
    have hv2' : vrecs st2 = vrecs st := hv2.trans hv1
    have hw2' : st2.width = st.width := hw21.trans hw1
    rw [hw1] at hrend
    rw [virtual_loc_change.eq_def]
    simp only []
    split
    · rename_i e heq
      rw [hfill] at heq
      cases heq
    · rename_i st1x heq
      rw [hfill] at heq
      injection heq with heq
      subst heq
      rw [hbe1]
      simp only [Bool.false_eq_true, if_false]
      rw [if_neg (by omega : ¬ r < 0)]
      split
      · rename_i e heq2
        rw [hrend] at heq2
        cases heq2
      · rename_i st2x cur heq2
        rw [hrend] at heq2
        injection heq2 with heq2
        injection heq2 with h2a h2b
        subst h2a
        subst h2b
        by_cases hd : d = 0
        · rw [if_pos hd]
          subst hd
          refine ⟨st2, ?_, hWF2, hv2', hw2'⟩
          have harg : (absUpTo st.width (vrecs st) r.toNat : Int) + l + 0 =
              (absUpTo st.width (vrecs st) r.toNat : Int) + l := by ring
          rw [harg, vlcResult_data (vrecs st) st.width r l hr0 hrn hl0 hln]
          rfl
        · rw [if_neg hd]
          by_cases hnl2 : l + d < 0
          · rw [dif_pos hnl2]
            by_cases hr00 : r = 0
            · rw [if_pos hr00]
              refine ⟨st2, ?_, hWF2, hv2', hw2'⟩
              have habs : (absUpTo st.width (vrecs st) r.toNat : Int) + l + d < 0 := by
                subst hr00
                have h0 : absUpTo st.width (vrecs st) (0 : Int).toNat = 0 := by
                  rw [Int.toNat_zero]
                  simp [absUpTo]
                rw [h0]
                omega
              rw [vlcResult_start _ _ _ habs]
            · rw [if_neg hr00]
              have hlen2 : (r - 1).toNat < st2.read_buffer.length := by
                rw [hb2]
                omega
              obtain ⟨st3, rec2, hrec2, hrend2, hWF3, hv3, hw3, hb3⟩ :=
                render_spec_vrecs st2 (r - 1) hWF2 (by omega) hlen2
              rw [hw2'] at hrend2
              have hv3' : vrecs st3 = vrecs st := hv3.trans hv2'
              have hw3' : st3.width = st.width := hw3.trans hw2'
              have hrec2' : (vrecs st).get? (r - 1).toNat = some rec2 := by
                rw [← hv2']
                exact hrec2
              have hnlr1 : nLines (vrecs st) st.width (r - 1).toNat =
                  (renderLines rec2 st.width).length := by
                unfold nLines
                rw [hrec2']
              have hL2pos : 1 ≤ (renderLines rec2 st.width).length :=
                renderLines_length_pos rec2 st.width
              split
              · rename_i e heq3
                rw [hrend2] at heq3
                cases heq3
              · rename_i st3x new_read heq3
                rw [hrend2] at heq3
                injection heq3 with heq3
                injection heq3 with h3a h3b
                subst h3a
                subst h3b
                have hMdec : vlcMeasure (r - 1)
                    (((renderLines rec2 st.width).length : Int) - 1) (l + d + 1) < N := by
                  unfold vlcMeasure at hM ⊢
                  split_ifs at hM ⊢ <;> omega
                obtain ⟨st4, hrecur, hWF4, hv4, hw4⟩ :=
                  ih st3 (r - 1) (((renderLines rec2 st.width).length : Int) - 1)
                    (l + d + 1) hMdec hWF3 (by omega)
                    (by rw [hv3']; omega)
                    (by omega)
                    (by rw [hv3', hw3', hnlr1]; omega)
                refine ⟨st4, ?_, hWF4, hv4.trans hv3', hw4.trans hw3'⟩
                rw [hrecur]
                have harith : (absUpTo st3.width (vrecs st3) (r - 1).toNat : Int) +
                    (((renderLines rec2 st.width).length : Int) - 1) + (l + d + 1) =
                    (absUpTo st.width (vrecs st) r.toNat : Int) + l + d := by
                  rw [hv3', hw3']
                  have hsucc := absUpTo_succ st.width (vrecs st) (r - 1).toNat
                  have hr1 : (r - 1).toNat + 1 = r.toNat := by omega
                  rw [hr1] at hsucc
                  rw [hnlr1] at hsucc
                  omega
                rw [harith, hv3', hw3']
          · rw [dif_neg hnl2]
            by_cases hge : l + d ≥ ((renderLines rec st.width).length : Int)
            · rw [dif_pos hge]
              have habsge : (absUpTo st.width (vrecs st) r.toNat : Int) + l + d ≥
                  (absUpTo st.width (vrecs st) (r.toNat + 1) : Int) := by
                have hsucc := absUpTo_succ st.width (vrecs st) r.toNat
                rw [hnl] at hln
                omega
              have hts2 : st2.total_reads = st.total_reads :=
                ((render_preserves st1 r st2 (renderLines rec st.width) hrend).2.1).trans hts1
              by_cases hr1n : r + 1 < ((vrecs st).length : Int)
              · -- next record exists: the engine recurses into it at line 0
                have hbe2f : beyond_eof st2 (r + 1) = false := by
                  rcases httot : st.total_reads with - | t
                  · exact beyond_eof_none st2 (r + 1) (hts2.trans httot)
                  · rw [beyond_eof_some st2 t (r + 1) (hts2.trans httot)]
                    have htn : t = ((vrecs st).length : Int) := by
                      have h := hWF.2.2.2 t httot
                      rw [vrecs_some st t httot]
                      exact h
                    simp only [ge_iff_le, decide_eq_false_iff_not, not_le]
                    omega
                rw [hbe2f]
                simp only [Bool.false_eq_true, if_false]
                have hMdec : vlcMeasure (r + 1) 0
                    (l + d - ((renderLines rec st.width).length : Int)) < N := by
                  unfold vlcMeasure at hM ⊢
                  split_ifs at hM ⊢ <;> omega
                obtain ⟨st4, hrecur, hWF4, hv4, hw4⟩ :=
                  ih st2 (r + 1) 0 (l + d - ((renderLines rec st.width).length : Int))
                    hMdec hWF2 (by omega) (by rw [hv2']; omega) (by omega)
                    (by
                      rw [hv2', hw2']
                      have hpos := nLines_pos (vrecs st) st.width (r + 1).toNat (by omega)
                      omega)
                refine ⟨st4, ?_, hWF4, hv4.trans hv2', hw4.trans hw2'⟩
                rw [hrecur]
                have harith : (absUpTo st2.width (vrecs st2) (r + 1).toNat : Int) + 0 +
                    (l + d - ((renderLines rec st.width).length : Int)) =
                    (absUpTo st.width (vrecs st) r.toNat : Int) + l + d := by
                  rw [hv2', hw2']
                  have hsucc := absUpTo_succ st.width (vrecs st) r.toNat
                  have hr1 : (r + 1).toNat = r.toNat + 1 := by omega
                  rw [hr1, hsucc, hnl]
                  push_cast
                  ring
                rw [harith, hv2', hw2']
              · -- r + 1 is past the last record
                have hreq : r + 1 = ((vrecs st).length : Int) := by omega
                have hT : (totalLines (vrecs st) st.width : Int) ≤
                    (absUpTo st.width (vrecs st) r.toNat : Int) + l + d := by
                  unfold totalLines
                  have hlenr : (vrecs st).length = r.toNat + 1 := by omega
                  rw [hlenr]
                  omega
                rcases httot : st.total_reads with - | t
                · -- total unknown: the recursive call discovers end of stream
                  have hbe2f : beyond_eof st2 (r + 1) = false :=
                    beyond_eof_none st2 (r + 1) (hts2.trans httot)
                  rw [hbe2f]
                  simp only [Bool.false_eq_true, if_false]
                  rw [virtual_loc_change.eq_def]
                  simp only []
                  have ht2none : st2.total_reads = none := hts2.trans httot
                  have hlen_v2 : (vrecs st2).length ≤ (r + 1).toNat := by
                    rw [hv2']
                    omega
                  obtain ⟨st3, hfill3, hbuf3, htot3, hw31, hc31, hv31⟩ :=
                    fill_none_discovery st2 (r + 1) ht2none (by omega) (by omega) hlen_v2
                  split
                  · rename_i e heq4
                    rw [hfill3] at heq4
                    cases heq4
                  · rename_i st3x heq4
                    rw [hfill3] at heq4
                    injection heq4 with heq4
                    subst heq4
                    have hbe3 : beyond_eof st3 (r + 1) = true := by
                      rw [beyond_eof_some st3 ((vrecs st2).length : Int) (r + 1) htot3]
                      simp only [ge_iff_le, decide_eq_true_eq]
                      rw [hv2']
                      omega
                    rw [hbe3]
                    rw [if_pos rfl]
                    refine ⟨st3, ?_, ?_, ?_, ?_⟩
                    · rw [vlcResult_eof _ _ _ hT]
                    · refine ⟨?_, ?_, ?_, ?_⟩
                      · rw [hw31, hw2']
                        exact hWF.1
                      · intro k e hke
                        rw [hc31] at hke
                        obtain ⟨rec', hk0, hget, he⟩ := hWF2.2.1 k e hke
                        refine ⟨rec', hk0, ?_, by rw [hw31]; exact he⟩
                        rw [hbuf3]
                        rw [buffer_get_vrecs st2 k.toNat (List.get?_eq_some.mp hget).1]
                        exact hget
                      · rw [hv31, hv2']
                        exact hn100
                      · intro t' htt'
                        rw [htot3] at htt'
                        injection htt' with htt'
                        rw [hbuf3, ← htt']
                    · rw [hv31, hv2']
                    · rw [hw31, hw2']
                · -- total known: beyond_eof fires and Eof is returned directly
                  have htn : t = ((vrecs st).length : Int) := by
                    have h := hWF.2.2.2 t httot
                    rw [vrecs_some st t httot]
                    exact h
                  have hbe2t : beyond_eof st2 (r + 1) = true := by
                    rw [beyond_eof_some st2 t (r + 1) (hts2.trans httot)]
                    simp only [ge_iff_le, decide_eq_true_eq]
                    omega
                  rw [hbe2t]
                  rw [if_pos rfl]
                  refine ⟨st2, ?_, hWF2, hv2', hw2'⟩
                  rw [vlcResult_eof _ _ _ hT]
            · rw [dif_neg hge]
              refine ⟨st2, ?_, hWF2, hv2', hw2'⟩
              have harg : (absUpTo st.width (vrecs st) r.toNat : Int) + l + d =
                  (absUpTo st.width (vrecs st) r.toNat : Int) + (l + d) := by ring
              rw [harg, vlcResult_data (vrecs st) st.width r (l + d) hr0 hrn
                (by omega) (by rw [hnl]; omega)]
              rfl

theorem fill_ok_bounds (st : FileReader) (r : Int) (st' : FileReader)
    (h : fill_read_buf st r = .ok st') : 0 ≤ r ∧ r ≤ 100000 := by
  unfold fill_read_buf at h
  split_ifs at h with h1 h2 h3 <;>
    first
    | exact Except.noConfusion h
    | exact ⟨by omega, by omega⟩

theorem fill_ok_known_eq (st : FileReader) (t r : Int) (st' : FileReader)
    (ht : st.total_reads = some t) (hlen : (st.read_buffer.length : Int) = t)
    (h : fill_read_buf st r = .ok st') : st' = st := by
  obtain ⟨hr0, hrc⟩ := fill_ok_bounds st r st' h
  by_cases hrt : r < t
  · rw [fill_some_noop st t r ht hlen hr0 hrc hrt] at h
    injection h with h
    exact h.symm
  · obtain ⟨msg, herr⟩ := fill_err_beyond st t r ht (by omega)
    rw [herr] at h
    exact Except.noConfusion h

theorem vlc_discovery (st : FileReader) (r t d : Int) (ll : Option Int)
    (ty : LocType) (st1 : FileReader)
    (hfill : fill_read_buf st r = .ok st1)
    (htot : st1.total_reads = some t) (hle : t ≤ r) :
    virtual_loc_change st ⟨some r, ll, ty⟩ d = .ok (st1, eofLoc) := by
  rw [virtual_loc_change.eq_def]
  simp only []
  split
  · rename_i e heq
    rw [hfill] at heq
    cases heq
  · rename_i st1x heq
    rw [hfill] at heq
    injection heq with heq
    subst heq
    have hbe : beyond_eof st1 r = true := by
      rw [beyond_eof_some st1 t r htot]
      simp only [ge_iff_le, decide_eq_true_eq]
      omega
    rw [hbe, if_pos rfl]

theorem vlcResult_range (recs : List Record) (w x : Int)
    (h : (vlcResult recs w x).type = .data) :
    0 ≤ x ∧ x < (totalLines recs w : Int) := by
  unfold vlcResult at h
  split_ifs at h with h1 h2
  · cases h
  · cases h
  · exact ⟨by omega, by omega⟩

theorem vlcResult_in_range (recs : List Record) (w x : Int)
    (h0 : 0 ≤ x) (hT : x < (totalLines recs w : Int)) :
    vlcResult recs w x =
      dataLoc ((locAt w recs x.toNat).1 : Int) ((locAt w recs x.toNat).2 : Int) := by
  unfold vlcResult
  rw [if_neg (by omega), if_neg (by omega)]

theorem WFState_stC5 : WFState stC5 := by
  refine ⟨by norm_num [stC5], ?_, by decide, ?_⟩
  · intro k e hke
    simp [stC5, lookupC] at hke
  · intro t htt
    injection htt with htt
    rw [← htt]
    rfl

theorem vlc_keeps_store : ∀ (N : Nat) (st : FileReader) (loc : ReadLineLocation)
    (d t : Int) (st' : FileReader) (res : ReadLineLocation),
    vlcMeasure (loc.read.getD 0) (loc.line.getD 0) d < N →
    st.total_reads = some t → (st.read_buffer.length : Int) = t →
    virtual_loc_change st loc d = .ok (st', res) →
    st'.read_buffer = st.read_buffer ∧ st'.total_reads = some t ∧
      st'.file = st.file := by
  intro N
  induction N with
  | zero => intro st loc d t st' res hM ht hlen hvlc; omega
  | succ N ih =>
    intro st loc d t st' res hM ht hlen hvlc
    rw [virtual_loc_change.eq_def] at hvlc
    rcases hread : loc.read with - | read
    · rw [hread] at hvlc
      simp at hvlc
    · rw [hread] at hvlc
      simp only [] at hvlc
      rw [hread] at hM
      simp only [Option.getD_some] at hM
      split at hvlc
      · simp at hvlc
      · rename_i st1 heqf
        have hst1 : st1 = st := fill_ok_known_eq st t read st1 ht hlen heqf
        rw [hst1] at hvlc
        obtain ⟨hr0, hrc⟩ := fill_ok_bounds st read st1 heqf
        split at hvlc
        · injection hvlc with h
          injection h with h1 h2
          exact ⟨by rw [← h1], by rw [← h1, ht], by rw [← h1]⟩
        · split at hvlc
          · injection hvlc with h
            injection h with h1 h2
            exact ⟨by rw [← h1], by rw [← h1, ht], by rw [← h1]⟩
          · split at hvlc
            · simp at hvlc
            · rename_i st2 cur heqr
              obtain ⟨hb2, ht2, hf2, hw2⟩ := render_preserves st read st2 cur heqr
              split at hvlc
              · injection hvlc with h
                injection h with h1 h2
                exact ⟨by rw [← h1, hb2], by rw [← h1, ht2, ht], by rw [← h1, hf2]⟩
              · rcases hline : loc.line with - | line
                · rw [hline] at hvlc
                  simp at hvlc
                · rw [hline] at hvlc
                  simp only [] at hvlc
                  rw [hline] at hM
                  simp only [Option.getD_some] at hM
                  split at hvlc
                  · split at hvlc
                    · injection hvlc with h
                      injection h with h1 h2
                      exact ⟨by rw [← h1, hb2], by rw [← h1, ht2, ht],
                        by rw [← h1, hf2]⟩
                    · split at hvlc
                      · simp at hvlc
                      · rename_i st3 nr heqr2
                        obtain ⟨hb3, ht3, hf3, hw3⟩ :=
                          render_preserves st2 (read - 1) st3 nr heqr2
                        have hM' : vlcMeasure
                            ((⟨some (read - 1), some ((nr.length : Int) - 1),
                              LocType.data⟩ : ReadLineLocation).read.getD 0)
                            ((⟨some (read - 1), some ((nr.length : Int) - 1),
                              LocType.data⟩ : ReadLineLocation).line.getD 0)
                            (line + d + 1) < N := by
                          simp only [Option.getD_some]
                          unfold vlcMeasure at hM ⊢
                          split_ifs at hM ⊢ <;> omega
                        obtain ⟨k1, k2, k3⟩ := ih st3
                          ⟨some (read - 1), some ((nr.length : Int) - 1), .data⟩
                          (line + d + 1) t st' res hM'
                          (by rw [ht3, ht2, ht]) (by rw [hb3, hb2]; exact hlen) hvlc
                        exact ⟨by rw [k1, hb3, hb2], k2, by rw [k3, hf3, hf2]⟩
                  · split at hvlc
                    · split at hvlc
                      · injection hvlc with h
                        injection h with h1 h2
                        exact ⟨by rw [← h1, hb2], by rw [← h1, ht2, ht],
                          by rw [← h1, hf2]⟩
                      · have hM' : vlcMeasure
                            ((⟨some (read + 1), some 0,
                              LocType.data⟩ : ReadLineLocation).read.getD 0)
                            ((⟨some (read + 1), some 0,
                              LocType.data⟩ : ReadLineLocation).line.getD 0)
                            (line + d - (cur.length : Int)) < N := by
                          simp only [Option.getD_some]
                          unfold vlcMeasure at hM ⊢
                          split_ifs at hM ⊢ <;> omega
                        obtain ⟨k1, k2, k3⟩ := ih st2
                          ⟨some (read + 1), some 0, .data⟩
                          (line + d - (cur.length : Int)) t st' res hM'
                          (by rw [ht2, ht]) (by rw [hb2]; exact hlen) hvlc
                        exact ⟨by rw [k1, hb2], k2, by rw [k3, hf2]⟩
                    · injection hvlc with h
                      injection h with h1 h2
                      exact ⟨by rw [← h1, hb2], by rw [← h1, ht2, ht],
                        by rw [← h1, hf2]⟩

theorem complement_base_invol (c : Char) :
    complement_base (complement_base c) = c := by
  by_cases h1 : c = 'A'
  · subst h1; decide
  by_cases h2 : c = 'T'
  · subst h2; decide
  by_cases h3 : c = 'C'
  · subst h3; decide
  by_cases h4 : c = 'G'
  · subst h4; decide
  by_cases h5 : c = 'a'
  · subst h5; decide
  by_cases h6 : c = 't'
  · subst h6; decide
  by_cases h7 : c = 'c'
  · subst h7; decide
  by_cases h8 : c = 'g'
  · subst h8; decide
  have hc : complement_base c = c := by
    unfold complement_base
    split_ifs <;> simp_all
  rw [hc, hc]

theorem flipDir_invol (dir : Direction) : flipDir (flipDir dir) = dir := by
  cases dir <;> rfl

theorem recRevComp_invol (rec : Record) : recRevComp (recRevComp rec) = rec := by
  unfold recRevComp
  cases rec with
  | mk seq qual idv dir =>
    simp only [Record.mk.injEq]
    refine ⟨?_, ?_, trivial, flipDir_invol dir⟩
    · show String.mk (((seq.data.reverse.map complement_base)).reverse.map
        complement_base) = String.mk seq.data
      congr 1
      rw [← List.map_reverse, List.reverse_reverse, List.map_map]
      have hcomp : complement_base ∘ complement_base = id := by
        funext c
        exact complement_base_invol c
      rw [hcomp, List.map_id]
    · show String.mk ((qual.data.reverse).reverse) = String.mk qual.data
      rw [List.reverse_reverse]

theorem listModify_length (l : List Record) (k : Nat) (f : Record → Record) :
    (listModify l k f).length = l.length := by
  induction l generalizing k with
  | nil => rfl
  | cons x rest ih =>
    cases k with
    | zero => rfl
    | succ k => simp [listModify, ih k]

theorem listModify_listModify (l : List Record) (k : Nat)
    (f : Record → Record) (hf : ∀ x, f (f x) = x) :
    listModify (listModify l k f) k f = l := by
  induction l generalizing k with
  | nil => rfl
  | cons x rest ih =>
    cases k with
    | zero => simp [listModify, hf x]
    | succ k => simp [listModify, ih k]

theorem lookupC_eraseKey_self (c : List (Int × List Line)) (k : Int) :
    lookupC (eraseKey c k) k = none := by
  induction c with
  | nil => rfl
  | cons p rest ih =>
    obtain ⟨k', v⟩ := p
    simp only [eraseKey]
    split_ifs with hk
    · exact ih
    · simp only [lookupC]
      rw [if_neg (by omega : ¬ k = k')]
      exact ih

theorem lookupC_eraseKey_ne (c : List (Int × List Line)) (k j : Int)
    (hj : j ≠ k) : lookupC (eraseKey c k) j = lookupC c j := by
  induction c with
  | nil => rfl
  | cons p rest ih =>
    obtain ⟨k', v⟩ := p
    simp only [eraseKey]
    split_ifs with hk
    · rw [ih]
      simp only [lookupC]
      rw [if_neg (by omega : ¬ j = k')]
    · simp only [lookupC]
      by_cases hjk : j = k'
      · rw [if_pos hjk, if_pos hjk]
      · rw [if_neg hjk, if_neg hjk]
        exact ih

/-- C9: for every new width value, the width-reconfiguration operation
`rerender` empties the entire wrap cache and leaves the record store
untouched — buffer contents, the `total_reads` fact and the underlying
stream position are the same before and after the call. -/
theorem c9_rerender_clears_cache_only (st : FileReader) (w : Int) :
    (rerender st w).segment_cache = [] ∧
    (rerender st w).read_buffer = st.read_buffer ∧
    (rerender st w).total_reads = st.total_reads ∧
    (rerender st w).file = st.file :=
  ⟨rfl, rfl, rfl, rfl⟩

/-- C2: evaluation of `soft_wrap_line` at the failing input.  At width
10, a 21-cell text (display width `2*width + 1`) yields only TWO
fragments, not the three the claim states: `range(width,
line_length - 1, width)` omits the cut at cell 20, so the fragments are
the cells `[0,10)` and `[10,21)`, and `adjust_line_length` then
truncates the 11-cell tail fragment to 10 cells, silently dropping the
21st display cell (the `C`).  The last conjunct shows the fits-in-width
half of the claim, which does hold, at a boundary input. -/
theorem c2_failing_eval :
    (soft_wrap_line (mkSeg "AAAAAAAAAABBBBBBBBBBC" none) 10).length = 2 ∧
    (soft_wrap_line (mkSeg "AAAAAAAAAABBBBBBBBBBC" none) 10).map List.length =
      [10, 10] ∧
    ((soft_wrap_line (mkSeg "AAAAAAAAAABBBBBBBBBBC" none) 10).join.map
      Cell.char) = "AAAAAAAAAABBBBBBBBBB".data ∧
    (soft_wrap_line (mkSeg "AAAAAAAAAA" none) 10).length = 1 := by
  decide

/-- C6 (modelled from the spec — the operation is absent from `src/`):
reverse-complementing a materialized record `k` twice restores the
original buffer (hence record `k`'s sequence, quality order and
direction flag), and each application invalidates exactly record `k`'s
wrap-cache entry: entry `k` is gone and every other entry is
untouched. -/
theorem c6_revcomp_involution_and_cache (st : FileReader) (k : Nat)
    (hk : k < st.read_buffer.length) :
    (reverse_complement (reverse_complement st k) k).read_buffer =
      st.read_buffer ∧
    lookupC (reverse_complement st k).segment_cache (k : Int) = none ∧
    (∀ j : Int, j ≠ (k : Int) →
      lookupC (reverse_complement st k).segment_cache j =
        lookupC st.segment_cache j) := by
  refine ⟨?_, ?_, ?_⟩
  · show listModify (listModify st.read_buffer k recRevComp) k recRevComp = _
    exact listModify_listModify st.read_buffer k recRevComp recRevComp_invol
  · exact lookupC_eraseKey_self st.segment_cache (k : Int)
  · intro j hj
    exact lookupC_eraseKey_ne st.segment_cache (k : Int) j hj

/-- Witness for C6 at a concrete state and record index. -/
theorem c6_witness :
    0 < stC5.read_buffer.length ∧
    ((reverse_complement (reverse_complement stC5 0) 0).read_buffer =
      stC5.read_buffer ∧
    lookupC (reverse_complement stC5 0).segment_cache ((0 : Nat) : Int) = none ∧
    (∀ j : Int, j ≠ ((0 : Nat) : Int) →
      lookupC (reverse_complement stC5 0).segment_cache j =
        lookupC stC5.segment_cache j)) :=
  ⟨by decide, c6_revcomp_involution_and_cache stC5 0 (by decide)⟩

/-- C10: after the caller supplies display width `w`, rendering uses
wrap width `w - 9`, not `w`: every record's cached lines are its
identifier block wrapped at `w - 9` followed by its sequence block
wrapped at `w - 10` with a one-cell `Segment(" ")` gutter prepended to
each sequence line, and every fragment is exactly `w - 9` cells. -/
theorem c10_effective_width (st : FileReader) (w : Int) (k : Nat) (rec : Record)
    (hw : 11 ≤ w) (hget : st.read_buffer.get? k = some rec) :
    ∃ st', render_read (rerender st w) (k : Int) =
        .ok (st',
          soft_wrap_line (mkSeg ("@" ++ rec.id) (some idStyle)) (w - 9) ++
            (soft_wrap_line (mkSeg rec.seq none) (w - 10)).map
              (fun line => mkSeg " " none ++ line)) ∧
      ∀ fr ∈ soft_wrap_line (mkSeg ("@" ++ rec.id) (some idStyle)) (w - 9) ++
          (soft_wrap_line (mkSeg rec.seq none) (w - 10)).map
            (fun line => mkSeg " " none ++ line),
        fr.length = (w - 9).toNat := by
  have hrl : renderLines rec (w - 9) =
      soft_wrap_line (mkSeg ("@" ++ rec.id) (some idStyle)) (w - 9) ++
        (soft_wrap_line (mkSeg rec.seq none) (w - 10)).map
          (fun line => mkSeg " " none ++ line) := by
    unfold renderLines
    have h1 : w - 9 - 1 = w - 10 := by ring
    rw [h1]
  have hcok : CacheOK (rerender st w) := by
    intro k' e hke
    simp [rerender, lookupC] at hke
  have hget' : (rerender st w).read_buffer.get? ((k : Int)).toNat = some rec := by
    show st.read_buffer.get? ((k : Int)).toNat = some rec
    rw [Int.toNat_natCast]
    exact hget
  obtain ⟨st', h1, h2, h3, h4, h5, h6⟩ :=
    render_spec (rerender st w) (k : Int) rec hcok (by omega) hget'
  refine ⟨st', ?_, ?_⟩
  · rw [h1]
    have hww : (rerender st w).width = w - 9 := rfl
    rw [hww, hrl]
  · intro fr hfr
    rcases List.mem_append.mp hfr with h | h
    · exact soft_wrap_line_mem_length _ fr (w - 9) (by omega) h
    · obtain ⟨fr', hfr', rfl⟩ := List.mem_map.mp h
      have h2 : (mkSeg " " none ++ fr').length =
          (mkSeg " " none).length + fr'.length := List.length_append _ _
      rw [h2]
      have h3 : (mkSeg " " none).length = 1 := rfl
      have h4 := soft_wrap_line_mem_length _ fr' (w - 10) (by omega) hfr'
      omega

/-- Witness for C10 at a concrete state, width and record. -/
theorem c10_witness :
    (11 : Int) ≤ 20 ∧ stC5.read_buffer.get? 0 = some rec0 ∧
    ∃ st' ls, render_read (rerender stC5 20) ((0 : Nat) : Int) = .ok (st', ls) := by
  refine ⟨by omega, by decide, ?_⟩
  obtain ⟨st', h1, -⟩ := c10_effective_width stC5 20 0 rec0 (by omega) (by decide)
  exact ⟨st', _, h1⟩

/-- C1 counterexample: with `total_reads` already known (here a fully
scanned empty file — `stEmpty` is exactly the state that
`fill_read_buf (initReader []) 0` produces) and `loc.record_index ≥
total_records`, `virtual_loc_change` does NOT return the `Eof`
sentinel: the unguarded leading `fill_read_buf(loc.read)` call raises
`IndexError("No more reads left in file")`, which propagates out of
move. -/
theorem c1_counterexample :
    virtual_loc_change stEmpty ⟨some 0, some 0, .data⟩ 1 =
      .error (.indexError "No more reads left in file") := by
  rw [virtual_loc_change.eq_def]
  rfl

/-- C1 amended: the move operation returns without raising — hence with
`Start`, `Eof` or a `Data` location — for every `Data` location the
store can legitimately ensure (index in `[0, number of records)` of a
well-formed state, which also keeps the scan inside the 100000-record
ceiling); and when `total_reads` first becomes known during the call's
own `fill_read_buf` with `loc.read` at or past it, move converts that
exhaustion into the `Eof` sentinel instead of an error.  (When
`total_reads` is ALREADY known and `loc.read ≥ total_reads`, the
RecordStore IndexError propagates — see the counterexample.) -/
theorem c1_amended_no_error :
    (∀ (st : FileReader) (r l d : Int), WFState st →
      0 ≤ r → r < ((vrecs st).length : Int) →
      0 ≤ l → l < (nLines (vrecs st) st.width r.toNat : Int) →
      ∃ st' res, virtual_loc_change st ⟨some r, some l, .data⟩ d =
        .ok (st', res)) ∧
    (∀ (st st1 : FileReader) (r t d : Int) (ll : Option Int) (ty : LocType),
      fill_read_buf st r = .ok st1 → st1.total_reads = some t → t ≤ r →
      virtual_loc_change st ⟨some r, ll, ty⟩ d = .ok (st1, eofLoc)) := by
  constructor
  · intro st r l d hWF hr0 hrn hl0 hln
    obtain ⟨st', h, -, -, -⟩ :=
      vlc_spec (vlcMeasure r l d + 1) st r l d (by omega) hWF hr0 hrn hl0 hln
    exact ⟨st', _, h⟩
  · intro st st1 r t d ll ty hfill htot hle
    exact vlc_discovery st r t d ll ty st1 hfill htot hle

/-- Witness for C1's amended theorem at concrete inputs. -/
theorem c1_witness :
    (WFState stC5 ∧ ∃ st' res,
      virtual_loc_change stC5 ⟨some 0, some 0, .data⟩ 3 = .ok (st', res)) ∧
    (fill_read_buf (initReader []) 0 = .ok stEmpty ∧
      stEmpty.total_reads = some 0 ∧
      virtual_loc_change (initReader []) ⟨some 0, some 0, .data⟩ 5 =
        .ok (stEmpty, eofLoc)) := by
  constructor
  · exact ⟨WFState_stC5,
      c1_amended_no_error.1 stC5 0 0 3 WFState_stC5 (by omega) (by decide)
        (by omega) (by decide)⟩
  · have hfe : fill_read_buf (initReader []) 0 = .ok stEmpty := by decide
    exact ⟨hfe, rfl,
      c1_amended_no_error.2 (initReader []) stEmpty 0 0 5 (some 0) .data hfe
        rfl (by omega)⟩

/-- C3 counterexample: `move(loc, 0)` does NOT return the location
unchanged for sentinel locations, because the zero-delta check runs
only after `fill_read_buf(loc.read)`: on `Start` (whose `read` field is
`None`) the comparison `None < 0` inside `fill_read_buf` raises
`TypeError`. -/
theorem c3_counterexample :
    virtual_loc_change (initReader sampleFile) startLoc 0 =
      .error .typeError := by
  rw [virtual_loc_change.eq_def]
  rfl

/-- C3 amended: `move(loc, 0)` returns `loc` unchanged exactly for
locations that survive the checks that in fact run FIRST — a non-`None`
record index whose ensure succeeds, that is not at/past a known end of
stream, is non-negative, and renders: the zero-delta check is not
performed first.  Sentinel locations (`read = None`) raise `TypeError`
for every delta, and a `Data` index whose own ensure call discovers end
of stream yields `Eof` rather than `loc`, even at delta 0. -/
theorem c3_amended_zero_delta :
    (∀ (st st1 st2 : FileReader) (loc : ReadLineLocation) (r : Int)
      (cur : List Line),
      loc.read = some r →
      fill_read_buf st r = .ok st1 →
      beyond_eof st1 r = false →
      ¬ r < 0 →
      render_read st1 r = .ok (st2, cur) →
      virtual_loc_change st loc 0 = .ok (st2, loc)) ∧
    (∀ (st : FileReader) (loc : ReadLineLocation) (d : Int),
      loc.read = none → virtual_loc_change st loc d = .error .typeError) ∧
    (∀ (st st1 : FileReader) (r t : Int) (ll : Option Int) (ty : LocType),
      fill_read_buf st r = .ok st1 → st1.total_reads = some t → t ≤ r →
      virtual_loc_change st ⟨some r, ll, ty⟩ 0 = .ok (st1, eofLoc)) := by
  refine ⟨?_, ?_, ?_⟩
  · intro st st1 st2 loc r cur hread hfill hbe hneg hrend
    rw [virtual_loc_change.eq_def, hread]
    simp only []
    split
    · rename_i e heq
      rw [hfill] at heq
      cases heq
    · rename_i st1x heq
      rw [hfill] at heq
      injection heq with heq
      subst heq
      rw [hbe]
      simp only [Bool.false_eq_true, if_false]
      rw [if_neg hneg]
      split
      · rename_i e heq2
        rw [hrend] at heq2
        cases heq2
      · rename_i st2x curx heq2
        rw [hrend] at heq2
        injection heq2 with heq2
        injection heq2 with h2a h2b
        subst h2a
        rw [if_pos trivial]
  · intro st loc d hread
    rw [virtual_loc_change.eq_def, hread]
  · intro st st1 r t ll ty hfill htot hle
    exact vlc_discovery st r t 0 ll ty st1 hfill htot hle

/-- Witness for C3's amended theorem at concrete inputs. -/
theorem c3_witness :
    ((⟨some 0, some 0, .data⟩ : ReadLineLocation).read = some 0 ∧
      fill_read_buf stC5 0 = .ok stC5 ∧
      beyond_eof stC5 0 = false ∧
      ¬ (0 : Int) < 0 ∧
      render_read stC5 0 = .ok (stC5r0, renderLines rec0 10) ∧
      virtual_loc_change stC5 ⟨some 0, some 0, .data⟩ 0 =
        .ok (stC5r0, ⟨some 0, some 0, .data⟩)) ∧
    virtual_loc_change stC5 startLoc 4 = .error .typeError ∧
    virtual_loc_change (initReader []) ⟨some 0, none, .data⟩ 0 =
      .ok (stEmpty, eofLoc) := by
  have hfe : fill_read_buf (initReader []) 0 = .ok stEmpty := by decide
  have hrend : render_read stC5 0 = .ok (stC5r0, renderLines rec0 10) := by decide
  refine ⟨⟨rfl, by decide, by decide, by omega, hrend, ?_⟩, ?_, ?_⟩
  · exact c3_amended_zero_delta.1 stC5 stC5 stC5r0 ⟨some 0, some 0, .data⟩ 0
      (renderLines rec0 10) rfl (by decide) (by decide) (by omega) hrend
  · exact c3_amended_zero_delta.2.1 stC5 startLoc 4 rfl
  · exact c3_amended_zero_delta.2.2 (initReader []) stEmpty 0 0 none .data hfe
      rfl (by omega)

/-- C5 counterexample: in the scenario state (2-record file at wrap
width 10, record 0 with a 25-base sequence, record 1 with a 5-base
sequence), record 0 occupies FOUR display lines (one identifier line
plus three sequence fragments at sequence wrap width 10 - 1 = 9), not
the three the claim assumes, so `move(Data(0,0), 4)` lands on
`Data(1,0)`, not `Data(1,1)`. -/
theorem c5_counterexample :
    (virtual_loc_change stC5 ⟨some 0, some 0, .data⟩ 4).toOption.map Prod.snd =
      some ⟨some 1, some 0, .data⟩ ∧
    (⟨some 1, some 0, .data⟩ : ReadLineLocation) ≠ ⟨some 1, some 1, .data⟩ := by
  constructor
  · obtain ⟨st', heq, -, -, -⟩ :=
      vlc_spec (vlcMeasure 0 0 4 + 1) stC5 0 0 4 (by omega) WFState_stC5
        (by omega) (by decide) (by omega) (by decide)
    rw [heq]
    show some (vlcResult (vrecs stC5) stC5.width
      ((absUpTo stC5.width (vrecs stC5) (0 : Int).toNat : Int) + 0 + 4)) = _
    decide
  · decide

/-- C5 amended: in the scenario state, record 0 occupies 4 display
lines (1 identifier + 3 sequence fragments) and record 1 occupies 2, so
`move(Data(0,0), 4)` lands on `Data(1,0)` and it is `move(Data(0,0), 5)`
that lands on `Data(1,1)`; `move(Data(1,1), 100)` returns `Eof` and
`move(Data(0,0), -1)` returns `Start` as claimed. -/
theorem c5_amended_scenario :
    nLines (vrecs stC5) stC5.width 0 = 4 ∧
    nLines (vrecs stC5) stC5.width 1 = 2 ∧
    (virtual_loc_change stC5 ⟨some 0, some 0, .data⟩ 4).toOption.map Prod.snd =
      some ⟨some 1, some 0, .data⟩ ∧
    (virtual_loc_change stC5 ⟨some 0, some 0, .data⟩ 5).toOption.map Prod.snd =
      some ⟨some 1, some 1, .data⟩ ∧
    (virtual_loc_change stC5 ⟨some 1, some 1, .data⟩ 100).toOption.map Prod.snd =
      some eofLoc ∧
    (virtual_loc_change stC5 ⟨some 0, some 0, .data⟩ (-1)).toOption.map Prod.snd =
      some startLoc := by
  refine ⟨by decide, by decide, ?_, ?_, ?_, ?_⟩
  · obtain ⟨st', heq, -, -, -⟩ :=
      vlc_spec (vlcMeasure 0 0 4 + 1) stC5 0 0 4 (by omega) WFState_stC5
        (by omega) (by decide) (by omega) (by decide)
    rw [heq]
    show some (vlcResult (vrecs stC5) stC5.width
      ((absUpTo stC5.width (vrecs stC5) (0 : Int).toNat : Int) + 0 + 4)) = _
    decide
  · obtain ⟨st', heq, -, -, -⟩ :=
      vlc_spec (vlcMeasure 0 0 5 + 1) stC5 0 0 5 (by omega) WFState_stC5
        (by omega) (by decide) (by omega) (by decide)
    rw [heq]
    show some (vlcResult (vrecs stC5) stC5.width
      ((absUpTo stC5.width (vrecs stC5) (0 : Int).toNat : Int) + 0 + 5)) = _
    decide
  · obtain ⟨st', heq, -, -, -⟩ :=
      vlc_spec (vlcMeasure 1 1 100 + 1) stC5 1 1 100 (by omega) WFState_stC5
        (by omega) (by decide) (by omega) (by decide)
    rw [heq]
    show some (vlcResult (vrecs stC5) stC5.width
      ((absUpTo stC5.width (vrecs stC5) (1 : Int).toNat : Int) + 1 + 100)) = _
    decide
  · obtain ⟨st', heq, -, -, -⟩ :=
      vlc_spec (vlcMeasure 0 0 (-1) + 1) stC5 0 0 (-1) (by omega) WFState_stC5
        (by omega) (by decide) (by omega) (by decide)
    rw [heq]
    show some (vlcResult (vrecs stC5) stC5.width
      ((absUpTo stC5.width (vrecs stC5) (0 : Int).toNat : Int) + 0 + (-1))) = _
    decide

/-- C7: the end-of-stream contract of the record store.  (1) When a
fill that started with `total_reads` unknown returns with `total_reads`
set, its value is exactly the resulting buffer length — the empty
identifier line set it to the current buffer length and appended no
half-read record.  (2) Once `total_reads` is set (with the buffer at that
length, as the parser guarantees), every operation — `fill_read_buf`,
`render_read`, `rerender`, the spec-modelled `reverse_complement`, and
`virtual_loc_change` — leaves the buffer at that same length (indeed
`fill`, `render` and `move` leave it untouched) and `total_reads`
unchanged, so the buffer never grows past it.  (3) Any fill request for
an index at or past `total_reads` raises an `IndexError` instead of
fetching. -/
theorem c7_total_reads_contract :
    (∀ (st : FileReader) (r : Int) (st' : FileReader),
      st.total_reads = none → fill_read_buf st r = .ok st' →
      ∀ t, st'.total_reads = some t → t = (st'.read_buffer.length : Int)) ∧
    (∀ (st : FileReader) (t : Int), st.total_reads = some t →
      (st.read_buffer.length : Int) = t →
      (∀ (r : Int) (st' : FileReader), fill_read_buf st r = .ok st' →
        st'.read_buffer = st.read_buffer ∧ st'.total_reads = some t) ∧
      (∀ (k : Int) (st' : FileReader) (ls : List Line),
        render_read st k = .ok (st', ls) →
        st'.read_buffer = st.read_buffer ∧ st'.total_reads = some t) ∧
      (∀ w : Int, (rerender st w).read_buffer = st.read_buffer ∧
        (rerender st w).total_reads = some t) ∧
      (∀ k : Nat, (reverse_complement st k).read_buffer.length =
        st.read_buffer.length ∧
        (reverse_complement st k).total_reads = some t) ∧
      (∀ (loc : ReadLineLocation) (d : Int) (st' : FileReader)
        (res : ReadLineLocation),
        virtual_loc_change st loc d = .ok (st', res) →
        st'.read_buffer = st.read_buffer ∧ st'.total_reads = some t)) ∧
    (∀ (st : FileReader) (t r : Int), st.total_reads = some t → t ≤ r →
      ∃ msg, fill_read_buf st r = .error (.indexError msg)) := by
  refine ⟨?_, ?_, ?_⟩
  · intro st r st' htn hfill t htot
    unfold fill_read_buf at hfill
    split_ifs at hfill with h1 h2 h3
    all_goals try exact Except.noConfusion hfill
    simp only [] at hfill
    rcases hfl : fill_loop st.read_buffer st.file
        ((r - (st.read_buffer.length : Int) + 1).toNat) with ⟨buf, f, tot⟩
    rw [hfl] at hfill
    simp only [] at hfill
    injection hfill with hfill
    rcases tot with - | tau
    · rw [← hfill] at htot
      simp only [htn] at htot
      cases htot
    · have htau : tau = (buf.length : Int) :=
        fill_loop_total_eq _ _ _ _ _ _ hfl
      rw [← hfill] at htot
      simp only [] at htot
      injection htot with htot
      rw [← hfill]
      simp only []
      omega
  · intro st t ht hlen
    refine ⟨?_, ?_, ?_, ?_, ?_⟩
    · intro r st' hf
      have heq := fill_ok_known_eq st t r st' ht hlen hf
      subst heq
      exact ⟨rfl, ht⟩
    · intro k st' ls hr
      have h := render_preserves st k st' ls hr
      exact ⟨h.1, h.2.1.trans ht⟩
    · intro w
      exact ⟨rfl, ht⟩
    · intro k
      exact ⟨listModify_length st.read_buffer k recRevComp, ht⟩
    · intro loc d st' res hv
      have h := vlc_keeps_store
        (vlcMeasure (loc.read.getD 0) (loc.line.getD 0) d + 1) st loc d t st'
        res (by omega) ht hlen hv
      exact ⟨h.1, h.2.1⟩
  · intro st t r ht hle
    exact fill_err_beyond st t r ht hle

/-- Witness for C7 at concrete inputs: end-of-stream discovery on an
empty stream, preservation on the scanned 2-record state, and the
out-of-range error for an index past the total. -/
theorem c7_witness :
    ((initReader []).total_reads = none ∧
      fill_read_buf (initReader []) 0 = .ok stEmpty ∧
      stEmpty.total_reads = some 0 ∧
      (0 : Int) = (stEmpty.read_buffer.length : Int)) ∧
    (stC5.total_reads = some 2 ∧ (stC5.read_buffer.length : Int) = 2 ∧
      fill_read_buf stC5 1 = .ok stC5 ∧
      stC5.read_buffer = stC5.read_buffer ∧ stC5.total_reads = some 2) ∧
    (stC5.total_reads = some 2 ∧ (2 : Int) ≤ 5 ∧
      ∃ msg, fill_read_buf stC5 5 = .error (.indexError msg)) := by
  have hfe : fill_read_buf (initReader []) 0 = .ok stEmpty := by decide
  refine ⟨⟨rfl, hfe, rfl, ?_⟩, ⟨rfl, rfl, by decide, ?_, ?_⟩, ⟨rfl, by omega, ?_⟩⟩
  · exact c7_total_reads_contract.1 (initReader []) 0 stEmpty rfl hfe 0 rfl
  · exact ((c7_total_reads_contract.2.1 stC5 2 rfl rfl).1 1 stC5 (by decide)).1
  · exact ((c7_total_reads_contract.2.1 stC5 2 rfl rfl).1 1 stC5 (by decide)).2
  · exact c7_total_reads_contract.2.2 stC5 2 5 rfl (by omega)

/-- C4: additivity of boundary-crossing moves.  For a valid starting
`Data` location in a well-formed state, if `move(loc, d1)` and
`move(move(loc, d1), d2)` both produce `Data` locations, then the
composite equals `move(loc, d1 + d2)` (same resulting location). -/
theorem c4_additivity (st st1 st2 : FileReader) (r l d1 d2 : Int)
    (res1 res2 : ReadLineLocation)
    (hWF : WFState st) (hr0 : 0 ≤ r) (hrn : r < ((vrecs st).length : Int))
    (hl0 : 0 ≤ l) (hln : l < (nLines (vrecs st) st.width r.toNat : Int))
    (h1 : virtual_loc_change st ⟨some r, some l, .data⟩ d1 = .ok (st1, res1))
    (ht1 : res1.type = .data)
    (h2 : virtual_loc_change st1 res1 d2 = .ok (st2, res2))
    (ht2 : res2.type = .data) :
    ∃ st3, virtual_loc_change st ⟨some r, some l, .data⟩ (d1 + d2) =
      .ok (st3, res2) := by
  obtain ⟨st1', heq1, hWF1, hv1, hw1⟩ :=
    vlc_spec (vlcMeasure r l d1 + 1) st r l d1 (by omega) hWF hr0 hrn hl0 hln
  rw [heq1] at h1
  injection h1 with h1
  injection h1 with h1a h1b
  rw [h1a] at heq1 hWF1 hv1 hw1
  rw [← h1b] at ht1
  obtain ⟨hx0, hxT⟩ := vlcResult_range (vrecs st) st.width
    ((absUpTo st.width (vrecs st) r.toNat : Int) + l + d1) ht1
  obtain ⟨hab, hr1len, hl1n⟩ := locAt_bounds st.width (vrecs st)
    (((absUpTo st.width (vrecs st) r.toNat : Int) + l + d1).toNat) (by omega)
  have hres1 : res1 = ⟨some ((locAt st.width (vrecs st)
      (((absUpTo st.width (vrecs st) r.toNat : Int) + l + d1).toNat)).1 : Int),
      some ((locAt st.width (vrecs st)
      (((absUpTo st.width (vrecs st) r.toNat : Int) + l + d1).toNat)).2 : Int),
      .data⟩ := by
    rw [← h1b, vlcResult_in_range _ _ _ hx0 hxT]
    rfl
  obtain ⟨st2', heq2, hWF2, hv2, hw2⟩ :=
    vlc_spec (vlcMeasure ((locAt st.width (vrecs st)
        (((absUpTo st.width (vrecs st) r.toNat : Int) + l + d1).toNat)).1 : Int)
        ((locAt st.width (vrecs st)
        (((absUpTo st.width (vrecs st) r.toNat : Int) + l + d1).toNat)).2 : Int)
        d2 + 1)
      st1
      ((locAt st.width (vrecs st)
        (((absUpTo st.width (vrecs st) r.toNat : Int) + l + d1).toNat)).1 : Int)
      ((locAt st.width (vrecs st)
        (((absUpTo st.width (vrecs st) r.toNat : Int) + l + d1).toNat)).2 : Int)
      d2 (by omega) hWF1
      (by positivity)
      (by rw [hv1]; exact_mod_cast hr1len)
      (by positivity)
      (by
        rw [hv1, hw1, Int.toNat_natCast]
        exact_mod_cast hl1n)
  rw [hres1] at h2
  rw [heq2] at h2
  injection h2 with h2
  injection h2 with h2a h2b
  rw [hv1, hw1, Int.toNat_natCast] at h2b
  obtain ⟨st3, heq3, -, -, -⟩ :=
    vlc_spec (vlcMeasure r l (d1 + d2) + 1) st r l (d1 + d2) (by omega) hWF
      hr0 hrn hl0 hln
  refine ⟨st3, ?_⟩
  rw [heq3]
  have harith : (absUpTo st.width (vrecs st) r.toNat : Int) + l + (d1 + d2) =
      (absUpTo st.width (vrecs st) ((locAt st.width (vrecs st)
        (((absUpTo st.width (vrecs st) r.toNat : Int) + l + d1).toNat)).1) : Int)
        + ((locAt st.width (vrecs st)
        (((absUpTo st.width (vrecs st) r.toNat : Int) + l + d1).toNat)).2 : Int)
        + d2 := by
    omega
  rw [harith, h2b]

/-- Witness for C4 at concrete inputs on the scenario state. -/
theorem c4_witness :
    WFState stC5 ∧
    ∃ (st1 st2 st3 : FileReader),
      virtual_loc_change stC5 ⟨some 0, some 0, .data⟩ 1 =
        .ok (st1, ⟨some 0, some 1, .data⟩) ∧
      (⟨some 0, some 1, .data⟩ : ReadLineLocation).type = .data ∧
      virtual_loc_change st1 ⟨some 0, some 1, .data⟩ 1 =
        .ok (st2, ⟨some 0, some 2, .data⟩) ∧
      (⟨some 0, some 2, .data⟩ : ReadLineLocation).type = .data ∧
      virtual_loc_change stC5 ⟨some 0, some 0, .data⟩ (1 + 1) =
        .ok (st3, ⟨some 0, some 2, .data⟩) := by
  refine ⟨WFState_stC5, ?_⟩
  obtain ⟨st1, heq1, hWF1, hv1, hw1⟩ :=
    vlc_spec (vlcMeasure 0 0 1 + 1) stC5 0 0 1 (by omega) WFState_stC5
      (by omega) (by decide) (by omega) (by decide)
  have hres1 : vlcResult (vrecs stC5) stC5.width
      ((absUpTo stC5.width (vrecs stC5) (0 : Int).toNat : Int) + 0 + 1) =
      ⟨some 0, some 1, .data⟩ := by decide
  rw [hres1] at heq1
  obtain ⟨st2, heq2, -, -, -⟩ :=
    vlc_spec (vlcMeasure 0 1 1 + 1) st1 0 1 1 (by omega) hWF1
      (by omega) (by rw [hv1]; decide) (by omega) (by rw [hv1, hw1]; decide)
  have hres2 : vlcResult (vrecs st1) st1.width
      ((absUpTo st1.width (vrecs st1) (0 : Int).toNat : Int) + 1 + 1) =
      ⟨some 0, some 2, .data⟩ := by
    rw [hv1, hw1]
    decide
  rw [hres2] at heq2
  obtain ⟨st3, h3⟩ := c4_additivity stC5 st1 st2 0 0 1 1
    ⟨some 0, some 1, .data⟩ ⟨some 0, some 2, .data⟩ WFState_stC5
    (by omega) (by decide) (by omega) (by decide) heq1 rfl heq2 rfl
  exact ⟨st1, st2, st3, heq1, rfl, heq2, rfl, h3⟩

/-- C8: every `Data` location produced by a move from a valid `Data`
starting location is itself valid — its line index lies in
`[0, wrapped_line_count(record_index))`, where `nLines` is the number
of display lines `render_read` yields for the record, and its record
index addresses an existing record. -/
theorem c8_result_in_bounds (st st' : FileReader) (r l d : Int)
    (res : ReadLineLocation)
    (hWF : WFState st) (hr0 : 0 ≤ r) (hrn : r < ((vrecs st).length : Int))
    (hl0 : 0 ≤ l) (hln : l < (nLines (vrecs st) st.width r.toNat : Int))
    (h : virtual_loc_change st ⟨some r, some l, .data⟩ d = .ok (st', res))
    (htype : res.type = .data) :
    ∃ (r' l' : Nat), res = ⟨some (r' : Int), some (l' : Int), .data⟩ ∧
      r' < (vrecs st).length ∧ l' < nLines (vrecs st) st.width r' := by
  obtain ⟨st1, heq, -, -, -⟩ :=
    vlc_spec (vlcMeasure r l d + 1) st r l d (by omega) hWF hr0 hrn hl0 hln
  rw [heq] at h
  injection h with h
  injection h with ha hb
  rw [← hb] at htype
  obtain ⟨hx0, hxT⟩ := vlcResult_range _ _ _ htype
  obtain ⟨hab, hrl, hln'⟩ := locAt_bounds st.width (vrecs st)
    (((absUpTo st.width (vrecs st) r.toNat : Int) + l + d).toNat) (by omega)
  refine ⟨_, _, ?_, hrl, hln'⟩
  rw [← hb, vlcResult_in_range _ _ _ hx0 hxT]
  rfl

/-- Witness for C8 at a concrete move on the scenario state. -/
theorem c8_witness :
    WFState stC5 ∧
    ∃ (st' : FileReader) (r' l' : Nat),
      virtual_loc_change stC5 ⟨some 0, some 0, .data⟩ 4 =
        .ok (st', ⟨some 1, some 0, .data⟩) ∧
      (⟨some 1, some 0, .data⟩ : ReadLineLocation) =
        ⟨some (r' : Int), some (l' : Int), .data⟩ ∧
      r' < (vrecs stC5).length ∧ l' < nLines (vrecs stC5) stC5.width r' := by
  refine ⟨WFState_stC5, ?_⟩
  obtain ⟨st', heq, -, -, -⟩ :=
    vlc_spec (vlcMeasure 0 0 4 + 1) stC5 0 0 4 (by omega) WFState_stC5
      (by omega) (by decide) (by omega) (by decide)
  have hres : vlcResult (vrecs stC5) stC5.width
      ((absUpTo stC5.width (vrecs stC5) (0 : Int).toNat : Int) + 0 + 4) =
      ⟨some 1, some 0, .data⟩ := by decide
  rw [hres] at heq
  obtain ⟨r', l', he, hr', hl'⟩ := c8_result_in_bounds stC5 st' 0 0 4
    ⟨some 1, some 0, .data⟩ WFState_stC5 (by omega) (by decide) (by omega)
    (by decide) heq rfl
  exact ⟨st', r', l', heq, he, hr', hl'⟩
